import Mathlib

/-!
Verification of the markdown-normalising formatter in `src/fix_markdown.py`.

The program splits a document on `'\n'` into lines, runs one forward pass
that inserts blank lines around headings, fenced code blocks and list
blocks (and strips one trailing colon from headings), then a second pass
that collapses runs of blank lines, and joins the lines back with `'\n'`.

A document is modelled as a `List Char`, a line as a `List Char` (`Line`);
the main loop becomes `fixLoop`, the collapsing pass `collapseBlanks`, and
the command-line entry point `pyMain` over an abstract file store.
Whitespace is modelled as the ASCII whitespace characters recognised by
Python's `str.strip()` and the regex class `\s`.
-/

abbrev Line := List Char

/-- Python whitespace (`\s` / `str.strip()`), restricted to ASCII. -/
def isPySpace (c : Char) : Bool :=
  c = ' ' || c = '\t' || c = '\n' || c = '\r' || c = '\x0b' || c = '\x0c'

/-- `line.strip() == ''`: the line is empty or whitespace-only. -/
def isBlank (l : Line) : Bool := l.all isPySpace

/-- `re.match(r'^#{1,6}\s', line)` (source lines 15, 19, 25): 1 to 6 `#`
characters followed by a whitespace character. -/
def isHeading (l : Line) : Bool :=
  let n := (l.takeWhile (fun c => c == '#')).length
  decide (1 ≤ n) && decide (n ≤ 6) &&
    (match l.dropWhile (fun c => c == '#') with
     | c :: _ => isPySpace c
     | [] => false)

/-- The line ends in a `:` character. -/
def endsColon (l : Line) : Bool :=
  match l.getLast? with
  | some c => c == ':'
  | none => false

/-- The line ends in two `:` characters (the inputs excluded by the
amended idempotence claim). -/
def endsColonColon (l : Line) : Bool :=
  match l.reverse with
  | ':' :: ':' :: _ => true
  | _ => false

/-- `re.sub(r':$', '', line)` (source line 20): remove one trailing colon
if present. -/
def rstripColon (l : Line) : Line :=
  if endsColon l then l.dropLast else l

/-- `re.match(r'^```', line)` (source line 29): the line starts with three
backticks. -/
def isFence (l : Line) : Bool := ['`', '`', '`'].isPrefixOf l

/-- `re.match(r'^```\s*$', line)` (source line 36): three backticks
followed by only whitespace. -/
def isClosingFence (l : Line) : Bool :=
  ['`', '`', '`'].isPrefixOf l && (l.drop 3).all isPySpace

/-- `re.match(r'^- ', line)` (source lines 51, 53, 58): the line starts
with `"- "`. -/
def isListItem (l : Line) : Bool := ['-', ' '].isPrefixOf l

/-- `re.match(r'^  ', line)` (source line 58): the line starts with two
spaces (list-continuation heuristic). -/
def isCont (l : Line) : Bool := [' ', ' '].isPrefixOf l

/-- `i > 0 and lines[i-1].strip() != ''` (source lines 15, 31): the
previous source line exists and is non-blank. -/
def prevNonBlank : Option Line → Bool
  | none => false
  | some p => !isBlank p

/-- Blank line appended after a construct when the next source line exists
and is non-blank (source lines 25-26, 45-46, 63-64). -/
def postBlank : List Line → List Line
  | [] => []
  | r :: _ => if isBlank r then [] else [[]]

/-- Blank line inserted before a list's first item: previous line exists,
is not itself a list item, and is non-blank (source lines 53-54). -/
def listPre : Option Line → List Line
  | none => []
  | some p => if !isListItem p && !isBlank p then [[]] else []

/-- Pass one of `fix_markdown_formatting` (source lines 10-68): the while
loop with cursor `i`, translated to recursion over the remaining lines,
carrying the previous source line `lines[i-1]` (`none` at `i = 0`).  The
`fuel` argument is a structural-recursion bound: every iteration consumes
at least one line, so any `fuel ≥ doc.length` yields the loop's behaviour
(the `fuel = 0` branch is then unreachable).  The `fixed_lines.insert(-1,
'')` calls place a blank immediately before the just-appended current
line, hence the `pre ++ line :: _` shapes.  The fence scan (source lines
35-37) splits the rest at the first line matching the closing-fence
pattern; the list scan (source lines 57-60) takes the maximal prefix of
list items / continuation lines, and the cursor jump `i = j` makes the
last consumed line the next previous line. -/
def fixLoop : Nat → Option Line → List Line → List Line
  | _, _, [] => []
  | 0, _, _ => []
  | fuel + 1, prev, line :: rest =>
    if isHeading line then
      (if prevNonBlank prev then [[]] else []) ++
        rstripColon line :: (postBlank rest ++ fixLoop fuel (some line) rest)
    else if isFence line then
      let pre := if prevNonBlank prev then [([] : Line)] else []
      match rest.dropWhile (fun l => !isClosingFence l) with
      | [] =>
        -- no closing fence: lines i+1 .. end copied verbatim, loop ends
        pre ++ line :: rest
      | close :: rest2 =>
        let body := rest.takeWhile (fun l => !isClosingFence l)
        pre ++ line :: (body ++ close :: (postBlank rest2 ++ fixLoop fuel (some close) rest2))
    else if isListItem line then
      let body := rest.takeWhile (fun l => isListItem l || isCont l)
      let after := rest.dropWhile (fun l => isListItem l || isCont l)
      listPre prev ++
        line :: (body ++ (postBlank after ++ fixLoop fuel (some (body.getLast?.getD line)) after))
    else
      line :: fixLoop fuel (some line) rest

/-- Pass one at its entry point: fuel equal to the number of lines. -/
def fixLines (doc : List Line) : List Line := fixLoop doc.length none doc

/-- Pass two (source lines 70-80): drop each blank line whose previously
processed line was also blank. -/
def collapseBlanks (prevEmpty : Bool) : List Line → List Line
  | [] => []
  | l :: rest =>
    if isBlank l then
      if prevEmpty then collapseBlanks true rest
      else l :: collapseBlanks true rest
    else l :: collapseBlanks false rest

/-- The `prev_empty` state of pass two after processing the lines `X`
starting from state `b`: blank-ness of the last processed line. -/
def cstate (b : Bool) : List Line → Bool
  | [] => b
  | x :: X => cstate (isBlank x) X

/-- `content.split('\n')` (source line 7). -/
def splitLines : List Char → List (List Char)
  | [] => [[]]
  | c :: cs =>
    let r := splitLines cs
    if c = '\n' then [] :: r
    else
      match r with
      | [] => [[c]]
      | l :: ls => (c :: l) :: ls

/-- `'\n'.join(result)` (source line 82). -/
def joinLines : List (List Char) → List Char
  | [] => []
  | [l] => l
  | l :: ls => l ++ '\n' :: joinLines ls

/-- The full formatter (source lines 6-82). -/
def fix_markdown_formatting (content : List Char) : List Char :=
  joinLines (collapseBlanks false (fixLines (splitLines content)))

/-- A document on which pass one makes no change: every rule of the loop
fires as a no-op.  Mirrors the recursion of `fixLoop` (same fuel bound);
used to prove idempotence. -/
def Formatted : Nat → Option Line → List Line → Bool
  | _, _, [] => true
  | 0, _, _ => true
  | fuel + 1, prev, line :: rest =>
    if isHeading line then
      !prevNonBlank prev && !endsColon line && postBlank rest == [] &&
        Formatted fuel (some line) rest
    else if isFence line then
      !prevNonBlank prev &&
        (match rest.dropWhile (fun l => !isClosingFence l) with
         | [] => true
         | close :: rest2 => postBlank rest2 == [] && Formatted fuel (some close) rest2)
    else if isListItem line then
      listPre prev == [] &&
        (let body := rest.takeWhile (fun l => isListItem l || isCont l)
         let after := rest.dropWhile (fun l => isListItem l || isCont l)
         postBlank after == [] && Formatted fuel (some (body.getLast?.getD line)) after)
    else
      Formatted fuel (some line) rest

/-- A document on which pass one makes no change at every sufficient fuel
(and trivially at insufficient fuel, since `Formatted _ _ _` is `true`
when the fuel runs out). -/
def FormattedAll (prev : Option Line) (L : List Line) : Prop :=
  ∀ g, Formatted g prev L = true

/-- Invariant tying a state of pass one (previous source line `prev`) to
the state of the collapsing pass at the same point: `b` is the
`prev_empty` flag, `q` the last line of the collapsed output so far. -/
def LoopInv (prev : Option Line) (b : Bool) (q : Option Line) : Prop :=
  (prev = none → b = false ∧ q = none) ∧
  (∀ p, prev = some p → isBlank p = true → b = true) ∧
  (b = true → prevNonBlank q = false) ∧
  (∀ p, prev = some p → isListItem p = true →
    (q = some p ∧ b = false) ∨ prevNonBlank q = false)

/-- Result of one invocation of the command-line program: lines printed to
standard output, exit status, file paths read, and the resulting file
store. -/
structure MainResult where
  stdout : List (List Char)
  exitCode : Nat
  readPaths : List (List Char)
  fs : List Char → Option (List Char)

/-- The usage message printed on wrong argument count (source line 86). -/
def usageMsg : List Char := "Usage: python3 fix_markdown.py <file>".data

/-- The confirmation message (source line 99). -/
def confirmMsg (filename : List Char) : List Char :=
  "Fixed markdown formatting in ".data ++ filename

/-- The `__main__` block (source lines 84-99) over an abstract file store
`fs` mapping paths to contents.  `argv` is the full `sys.argv`, program
name included.  A missing / unreadable file raises an uncaught exception:
non-zero exit, nothing written (spec section 7, failure surface 2). -/
def pyMain (argv : List (List Char)) (fs : List Char → Option (List Char)) : MainResult :=
  if argv.length ≠ 2 then
    { stdout := [usageMsg], exitCode := 1, readPaths := [], fs := fs }
  else
    let filename := (argv.drop 1).headD []
    match fs filename with
    | none => { stdout := [], exitCode := 1, readPaths := [filename], fs := fs }
    | some content =>
        { stdout := [confirmMsg filename], exitCode := 0, readPaths := [filename],
          fs := fun g => if g = filename then some (fix_markdown_formatting content) else fs g }

/-! ## Basic facts about line classes -/

theorem isBlank_nil : isBlank [] = true := rfl

theorem not_isPySpace_hash : isPySpace '#' = false := rfl

theorem not_isPySpace_tick : isPySpace '`' = false := rfl

theorem not_isPySpace_dash : isPySpace '-' = false := rfl

theorem isHeading_head (l : Line) (h : isHeading l = true) :
    ∃ t, l = '#' :: t := by
  unfold isHeading at h
  cases l with
  | nil => simp at h
  | cons c t =>
    by_cases hc : c = '#'
    · exact ⟨t, by rw [hc]⟩
    · exfalso
      simp only [List.takeWhile_cons] at h
      rw [show (c == '#') = false by simp [hc]] at h
      simp at h

theorem isPrefixOf_cons_head (a : Char) (p l : List Char)
    (h : (a :: p).isPrefixOf l = true) :
    ∃ t, l = a :: t ∧ p.isPrefixOf t = true := by
  cases l with
  | nil => simp [List.isPrefixOf] at h
  | cons b t =>
    simp only [List.isPrefixOf, Bool.and_eq_true, beq_iff_eq] at h
    exact ⟨t, by rw [h.1], h.2⟩

theorem isFence_head (l : Line) (h : isFence l = true) :
    ∃ t, l = '`' :: t := by
  obtain ⟨t, ht, -⟩ := isPrefixOf_cons_head '`' _ _ h
  exact ⟨t, ht⟩

theorem isListItem_head (l : Line) (h : isListItem l = true) :
    ∃ t, l = '-' :: t := by
  obtain ⟨t, ht, -⟩ := isPrefixOf_cons_head '-' _ _ h
  exact ⟨t, ht⟩

theorem heading_not_blank (l : Line) (h : isHeading l = true) :
    isBlank l = false := by
  obtain ⟨t, rfl⟩ := isHeading_head l h
  simp [isBlank, isPySpace]

/-! ## Claim theorems (easy, concrete ones) -/

/-- C7: on the concrete input `"Para\n```\ncode\n```\nMore"` the formatter
returns exactly `"Para\n\n```\ncode\n```\n\nMore"`: a blank line is
inserted before the opening fence and after the closing fence. -/
theorem fence_example_exact :
    fix_markdown_formatting "Para\n```\ncode\n```\nMore".data
      = "Para\n\n```\ncode\n```\n\nMore".data := by decide

/-- C10: applied to the empty string, the formatter returns the empty
string. -/
theorem empty_input_empty_output :
    fix_markdown_formatting "".data = "".data := by decide

/-- C8: with an argument count other than exactly one file path (so
`sys.argv` not of length 2), the program prints the usage message to
standard output, exits with a non-zero status, reads no file, and leaves
the file store untouched. -/
theorem wrong_argc_usage (argv : List (List Char))
    (fs : List Char → Option (List Char)) (h : argv.length ≠ 2) :
    (pyMain argv fs).stdout = [usageMsg] ∧ (pyMain argv fs).exitCode ≠ 0 ∧
      (pyMain argv fs).readPaths = [] ∧ (pyMain argv fs).fs = fs := by
  unfold pyMain
  rw [if_pos h]
  exact ⟨rfl, by simp, rfl, rfl⟩

/-- Witness for `wrong_argc_usage` at the concrete call `python3
fix_markdown.py` with no file argument and an empty file store. -/
theorem wrong_argc_usage_witness :
    ([['p']].length ≠ 2) ∧
      ((pyMain [['p']] (fun _ => none)).stdout = [usageMsg] ∧
       (pyMain [['p']] (fun _ => none)).exitCode ≠ 0 ∧
       (pyMain [['p']] (fun _ => none)).readPaths = [] ∧
       (pyMain [['p']] (fun _ => none)).fs = (fun _ => none)) :=
  ⟨by decide, wrong_argc_usage _ _ (by decide)⟩

/-! ## Lemmas about pass two (`collapseBlanks`) -/

theorem collapse_nil (b : Bool) : collapseBlanks b [] = [] := rfl

theorem collapse_cons_nonblank (b : Bool) (l : Line) (rest : List Line)
    (h : isBlank l = false) :
    collapseBlanks b (l :: rest) = l :: collapseBlanks false rest := by
  cases b <;> simp [collapseBlanks, h]

theorem collapse_true_cons_blank (l : Line) (rest : List Line)
    (h : isBlank l = true) :
    collapseBlanks true (l :: rest) = collapseBlanks true rest := by
  simp [collapseBlanks, h]

theorem collapse_false_cons_blank (l : Line) (rest : List Line)
    (h : isBlank l = true) :
    collapseBlanks false (l :: rest) = l :: collapseBlanks true rest := by
  simp [collapseBlanks, h]

theorem collapse_false_cons (l : Line) (rest : List Line) :
    collapseBlanks false (l :: rest) = l :: collapseBlanks (isBlank l) rest := by
  by_cases h : isBlank l = true
  · rw [collapse_false_cons_blank _ _ h, h]
  · simp only [Bool.not_eq_true] at h
    rw [collapse_cons_nonblank _ _ _ h, h]

theorem collapse_cons (b : Bool) (l : Line) (rest : List Line) :
    collapseBlanks b (l :: rest)
      = (if isBlank l && b then [] else [l]) ++ collapseBlanks (isBlank l) rest := by
  by_cases h : isBlank l = true
  · cases b with
    | true => rw [collapse_true_cons_blank _ _ h, h]; rfl
    | false => rw [collapse_false_cons_blank _ _ h, h]; rfl
  · simp only [Bool.not_eq_true] at h
    rw [collapse_cons_nonblank _ _ _ h, h]
    simp

theorem collapse_append (b : Bool) (X Y : List Line) :
    collapseBlanks b (X ++ Y) = collapseBlanks b X ++ collapseBlanks (cstate b X) Y := by
  induction X generalizing b with
  | nil => simp [collapseBlanks, cstate]
  | cons x X ih =>
    rw [List.cons_append, collapse_cons, collapse_cons, ih (isBlank x)]
    show _ = _ ++ collapseBlanks (cstate b (x :: X)) Y
    rw [show cstate b (x :: X) = cstate (isBlank x) X from rfl]
    simp

theorem collapse_mem (b : Bool) (L : List Line) (x : Line)
    (h : x ∈ collapseBlanks b L) : x ∈ L := by
  induction L generalizing b with
  | nil => simp [collapseBlanks] at h
  | cons l rest ih =>
    rw [collapse_cons] at h
    rcases List.mem_append.mp h with h1 | h2
    · by_cases hb : (isBlank l && b) = true
      · rw [if_pos hb] at h1
        simp at h1
      · rw [if_neg hb] at h1
        simp only [List.mem_singleton] at h1
        exact h1 ▸ List.mem_cons_self _ _
    · exact List.mem_cons_of_mem _ (ih _ h2)

theorem collapse_head_nonblank (L : List Line) (y : Line)
    (h : (collapseBlanks true L).head? = some y) : isBlank y = false := by
  induction L with
  | nil => simp [collapseBlanks] at h
  | cons l rest ih =>
    by_cases hb : isBlank l = true
    · rw [collapse_true_cons_blank _ _ hb] at h
      exact ih h
    · simp only [Bool.not_eq_true] at hb
      rw [collapse_cons_nonblank _ _ _ hb] at h
      simp only [List.head?_cons, Option.some.injEq] at h
      rw [← h]
      exact hb

theorem collapse_chain_nb (b : Bool) (L : List Line) :
    List.Chain' (fun a c => ¬(isBlank a = true ∧ isBlank c = true))
      (collapseBlanks b L) := by
  induction L generalizing b with
  | nil => simp [collapseBlanks]
  | cons l rest ih =>
    by_cases hb : isBlank l = true
    · cases b with
      | true =>
        rw [collapse_true_cons_blank _ _ hb]
        exact ih true
      | false =>
        rw [collapse_false_cons_blank _ _ hb, List.chain'_cons']
        refine ⟨fun y hy => ?_, ih true⟩
        have := collapse_head_nonblank rest y hy
        simp [this]
    · simp only [Bool.not_eq_true] at hb
      rw [collapse_cons_nonblank _ _ _ hb, List.chain'_cons']
      exact ⟨fun y _ => by simp [hb], ih false⟩

theorem collapse_id_of_chain (L : List Line)
    (h : List.Chain' (fun a c => ¬(isBlank a = true ∧ isBlank c = true)) L) :
    collapseBlanks false L = L := by
  induction L with
  | nil => rfl
  | cons l rest ih =>
    rw [List.chain'_cons'] at h
    obtain ⟨hhead, htail⟩ := h
    by_cases hb : isBlank l = true
    · rw [collapse_false_cons_blank _ _ hb]
      have hrest : collapseBlanks true rest = collapseBlanks false rest := by
        cases rest with
        | nil => rfl
        | cons y Y =>
          have hy : isBlank y = false := by
            have h2 := hhead y (by simp)
            by_cases h3 : isBlank y = true
            · exact absurd ⟨hb, h3⟩ h2
            · simpa using h3
          rw [collapse_cons_nonblank _ _ _ hy, collapse_cons_nonblank _ _ _ hy]
      rw [hrest, ih htail]
    · simp only [Bool.not_eq_true] at hb
      rw [collapse_cons_nonblank _ _ _ hb, ih htail]

theorem collapse_append_chain (body : List Line)
    (hc : List.Chain' (fun a c => ¬(isBlank a = true ∧ isBlank c = true)) body)
    (z : Line) (hz : isBlank z = false) (Y : List Line) :
    collapseBlanks false (body ++ z :: Y) = body ++ z :: collapseBlanks false Y := by
  induction body with
  | nil => simp [collapse_cons_nonblank _ _ _ hz]
  | cons x body ih =>
    rw [List.chain'_cons'] at hc
    obtain ⟨hhead, htail⟩ := hc
    by_cases hb : isBlank x = true
    · rw [List.cons_append, collapse_false_cons_blank _ _ hb]
      have hnext : collapseBlanks true (body ++ z :: Y)
          = collapseBlanks false (body ++ z :: Y) := by
        cases body with
        | nil =>
          simp only [List.nil_append]
          rw [collapse_cons_nonblank _ _ _ hz, collapse_cons_nonblank _ _ _ hz]
        | cons y Y2 =>
          have hy : isBlank y = false := by
            have h2 := hhead y (by simp)
            by_cases h3 : isBlank y = true
            · exact absurd ⟨hb, h3⟩ h2
            · simpa using h3
          rw [List.cons_append, collapse_cons_nonblank _ _ _ hy,
            collapse_cons_nonblank _ _ _ hy]
      rw [hnext, ih htail, List.cons_append]
    · simp only [Bool.not_eq_true] at hb
      rw [List.cons_append, collapse_cons_nonblank _ _ _ hb, ih htail, List.cons_append]

theorem collapse_ne_nil (l : Line) (rest : List Line) :
    collapseBlanks false (l :: rest) ≠ [] := by
  rw [collapse_false_cons]
  simp

/-! ## More facts about line classes -/

theorem fence_not_blank (l : Line) (h : isFence l = true) : isBlank l = false := by
  obtain ⟨t, rfl⟩ := isFence_head l h
  simp [isBlank, isPySpace]

theorem listItem_not_blank (l : Line) (h : isListItem l = true) : isBlank l = false := by
  obtain ⟨t, rfl⟩ := isListItem_head l h
  simp [isBlank, isPySpace]

theorem closing_isFence (l : Line) (h : isClosingFence l = true) : isFence l = true := by
  unfold isClosingFence at h
  rw [Bool.and_eq_true] at h
  exact h.1

theorem closing_not_blank (l : Line) (h : isClosingFence l = true) : isBlank l = false :=
  fence_not_blank l (closing_isFence l h)

theorem not_heading_of_head (c : Char) (t : List Char) (h : c ≠ '#') :
    isHeading (c :: t) = false := by
  unfold isHeading
  rw [List.takeWhile_cons, show (c == '#') = false by simp [h]]
  simp

theorem not_fence_of_head (c : Char) (t : List Char) (h : c ≠ '`') :
    isFence (c :: t) = false := by
  unfold isFence
  simp only [List.isPrefixOf, Bool.and_eq_true, beq_iff_eq]
  rw [show ('`' == c) = false by simp [Ne.symm h]]
  simp

theorem not_listItem_of_head (c : Char) (t : List Char) (h : c ≠ '-') :
    isListItem (c :: t) = false := by
  unfold isListItem
  simp only [List.isPrefixOf]
  rw [show ('-' == c) = false by simp [Ne.symm h]]
  simp

theorem blank_not_heading (l : Line) (h : isBlank l = true) : isHeading l = false := by
  by_contra hc
  simp only [Bool.not_eq_false] at hc
  rw [heading_not_blank l hc] at h
  exact Bool.noConfusion h

theorem blank_not_fence (l : Line) (h : isBlank l = true) : isFence l = false := by
  by_contra hc
  simp only [Bool.not_eq_false] at hc
  rw [fence_not_blank l hc] at h
  exact Bool.noConfusion h

theorem blank_not_listItem (l : Line) (h : isBlank l = true) : isListItem l = false := by
  by_contra hc
  simp only [Bool.not_eq_false] at hc
  rw [listItem_not_blank l hc] at h
  exact Bool.noConfusion h

theorem fence_not_heading (l : Line) (h : isFence l = true) : isHeading l = false := by
  obtain ⟨t, rfl⟩ := isFence_head l h
  exact not_heading_of_head _ _ (by decide)

theorem listItem_not_heading (l : Line) (h : isListItem l = true) : isHeading l = false := by
  obtain ⟨t, rfl⟩ := isListItem_head l h
  exact not_heading_of_head _ _ (by decide)

theorem listItem_not_fence (l : Line) (h : isListItem l = true) : isFence l = false := by
  obtain ⟨t, rfl⟩ := isListItem_head l h
  exact not_fence_of_head _ _ (by decide)

theorem cont_not_heading (l : Line) (h : isCont l = true) : isHeading l = false := by
  obtain ⟨t, ht, -⟩ := isPrefixOf_cons_head ' ' _ _ h
  rw [ht]
  exact not_heading_of_head _ _ (by decide)

theorem empty_line_blank : isBlank ([] : Line) = true := rfl

theorem blank_not_empty_rel (a c : Line) (hc : isBlank c = false) :
    ¬(isBlank a = true ∧ isBlank c = true) := by
  rintro ⟨-, h2⟩
  rw [hc] at h2
  exact Bool.noConfusion h2

/-! ## Generic list helpers -/

theorem mem_of_mem_takeWhile {α : Type} (p : α → Bool) (l : List α) (x : α)
    (h : x ∈ l.takeWhile p) : x ∈ l := by
  induction l with
  | nil => simp at h
  | cons a t ih =>
    rw [List.takeWhile_cons] at h
    by_cases hp : p a = true
    · rw [if_pos hp] at h
      rcases List.mem_cons.mp h with h1 | h2
      · exact h1 ▸ List.mem_cons_self _ _
      · exact List.mem_cons_of_mem _ (ih h2)
    · rw [if_neg hp] at h
      simp at h

theorem mem_of_mem_dropWhile {α : Type} (p : α → Bool) (l : List α) (x : α)
    (h : x ∈ l.dropWhile p) : x ∈ l := by
  induction l with
  | nil => simp at h
  | cons a t ih =>
    rw [List.dropWhile_cons] at h
    by_cases hp : p a = true
    · rw [if_pos hp] at h
      exact List.mem_cons_of_mem _ (ih h)
    · rw [if_neg hp] at h
      exact h

theorem dropWhile_length_le {α : Type} (p : α → Bool) (l : List α) :
    (l.dropWhile p).length ≤ l.length := by
  induction l with
  | nil => simp
  | cons a t ih =>
    rw [List.dropWhile_cons]
    by_cases hp : p a = true
    · rw [if_pos hp]
      exact le_trans ih (Nat.le_succ _)
    · rw [if_neg hp]

theorem all_mem_takeWhile {α : Type} (p : α → Bool) (l : List α) (x : α)
    (h : x ∈ l.takeWhile p) : p x = true :=
  List.mem_takeWhile_imp h

/-- Splitting a list at the first element failing `p`:
if everything in `xs` satisfies `p` and `c` does not, the `takeWhile` is
`xs` and the `dropWhile` starts at `c`. -/
theorem takeWhile_eq_of_all {α : Type} (p : α → Bool) (xs : List α)
    (h : ∀ x ∈ xs, p x = true) : ∀ ys, (hc : ∀ c ∈ ys.head?, p c = false) →
    (xs ++ ys).takeWhile p = xs ∧ (xs ++ ys).dropWhile p = ys := by
  induction xs with
  | nil =>
    intro ys hc
    cases ys with
    | nil => simp
    | cons c t =>
      have := hc c (by simp)
      simp [List.takeWhile_cons, List.dropWhile_cons, this]
  | cons a xs ih =>
    intro ys hc
    have ha := h a (by simp)
    have hrest : ∀ x ∈ xs, p x = true := fun x hx => h x (List.mem_cons_of_mem _ hx)
    obtain ⟨h1, h2⟩ := ih hrest ys hc
    rw [List.cons_append, List.takeWhile_cons, List.dropWhile_cons]
    simp [ha, h1, h2]

/-! ## Splitting and joining lines -/

theorem splitLines_ne_nil (c : List Char) : splitLines c ≠ [] := by
  induction c with
  | nil => simp [splitLines]
  | cons a cs ih =>
    simp only [splitLines]
    by_cases h : a = '\n'
    · simp [h]
    · simp only [h, if_false]
      split <;> simp

theorem splitLines_cons_newline (cs : List Char) :
    splitLines ('\n' :: cs) = [] :: splitLines cs := by
  simp [splitLines]

theorem splitLines_cons_other (c : Char) (cs : List Char) (l : List Char)
    (ls : List (List Char)) (h : c ≠ '\n') (hs : splitLines cs = l :: ls) :
    splitLines (c :: cs) = (c :: l) :: ls := by
  simp [splitLines, h, hs]

theorem mem_splitLines_no_newline (c : List Char) (x : List Char)
    (hx : x ∈ splitLines c) : '\n' ∉ x := by
  induction c generalizing x with
  | nil =>
    simp only [splitLines, List.mem_singleton] at hx
    simp [hx]
  | cons a cs ih =>
    by_cases h : a = '\n'
    · rw [h, splitLines_cons_newline] at hx
      rcases List.mem_cons.mp hx with h1 | h2
      · simp [h1]
      · exact ih x h2
    · obtain ⟨l, ls, hs⟩ : ∃ l ls, splitLines cs = l :: ls := by
        cases hsp : splitLines cs with
        | nil => exact absurd hsp (splitLines_ne_nil cs)
        | cons l ls => exact ⟨l, ls, rfl⟩
      rw [splitLines_cons_other a cs l ls h hs] at hx
      rcases List.mem_cons.mp hx with h1 | h2
      · rw [h1]
        intro hmem
        rcases List.mem_cons.mp hmem with h3 | h4
        · exact h (h3.symm)
        · exact ih l (hs ▸ List.mem_cons_self _ _) h4
      · exact ih x (hs ▸ List.mem_cons_of_mem _ h2)

theorem splitLines_no_newline (l : List Char) (h : '\n' ∉ l) :
    splitLines l = [l] := by
  induction l with
  | nil => rfl
  | cons c cs ih =>
    have hc : c ≠ '\n' := fun hh => h (hh ▸ List.mem_cons_self _ _)
    have hcs : '\n' ∉ cs := fun hh => h (List.mem_cons_of_mem _ hh)
    exact splitLines_cons_other c cs cs [] hc (ih hcs)

theorem splitLines_append_newline (l t : List Char) (h : '\n' ∉ l) :
    splitLines (l ++ '\n' :: t) = l :: splitLines t := by
  induction l with
  | nil => simpa using splitLines_cons_newline t
  | cons c cs ih =>
    have hc : c ≠ '\n' := fun hh => h (hh ▸ List.mem_cons_self _ _)
    have hcs : '\n' ∉ cs := fun hh => h (List.mem_cons_of_mem _ hh)
    rw [List.cons_append]
    exact splitLines_cons_other c _ cs (splitLines t) hc (ih hcs)

theorem split_join (L : List (List Char)) (hne : L ≠ [])
    (h : ∀ l ∈ L, '\n' ∉ l) : splitLines (joinLines L) = L := by
  induction L with
  | nil => exact absurd rfl hne
  | cons l L ih =>
    cases L with
    | nil =>
      show splitLines (joinLines [l]) = [l]
      rw [show joinLines [l] = l from rfl]
      exact splitLines_no_newline l (h l (by simp))
    | cons l2 L2 =>
      rw [show joinLines (l :: l2 :: L2) = l ++ '\n' :: joinLines (l2 :: L2) from rfl]
      rw [splitLines_append_newline _ _ (h l (by simp))]
      rw [ih (by simp) (fun x hx => h x (List.mem_cons_of_mem _ hx))]

/-! ## Step lemmas for the main loop -/

theorem fixLoop_nil (fuel : Nat) (prev : Option Line) : fixLoop fuel prev [] = [] := by
  cases fuel <;> rfl

theorem fixLoop_heading (fuel : Nat) (prev : Option Line) (line : Line)
    (rest : List Line) (h : isHeading line = true) :
    fixLoop (fuel + 1) prev (line :: rest)
      = (if prevNonBlank prev then [[]] else []) ++
          rstripColon line :: (postBlank rest ++ fixLoop fuel (some line) rest) := by
  simp only [fixLoop, h, if_true]

theorem fixLoop_fence_unterm (fuel : Nat) (prev : Option Line) (line : Line)
    (rest : List Line) (hh : isHeading line = false) (hf : isFence line = true)
    (hd : rest.dropWhile (fun l => !isClosingFence l) = []) :
    fixLoop (fuel + 1) prev (line :: rest)
      = (if prevNonBlank prev then [[]] else []) ++ line :: rest := by
  simp only [fixLoop, hh, hf, hd, Bool.false_eq_true, if_false, if_true]

theorem fixLoop_fence_close (fuel : Nat) (prev : Option Line) (line : Line)
    (rest : List Line) (close : Line) (rest2 : List Line)
    (hh : isHeading line = false) (hf : isFence line = true)
    (hd : rest.dropWhile (fun l => !isClosingFence l) = close :: rest2) :
    fixLoop (fuel + 1) prev (line :: rest)
      = (if prevNonBlank prev then [[]] else []) ++
          line :: (rest.takeWhile (fun l => !isClosingFence l) ++
            close :: (postBlank rest2 ++ fixLoop fuel (some close) rest2)) := by
  simp only [fixLoop, hh, hf, hd, Bool.false_eq_true, if_false, if_true]

theorem fixLoop_list (fuel : Nat) (prev : Option Line) (line : Line)
    (rest : List Line) (hh : isHeading line = false) (hf : isFence line = false)
    (hl : isListItem line = true) :
    fixLoop (fuel + 1) prev (line :: rest)
      = listPre prev ++
          line :: (rest.takeWhile (fun l => isListItem l || isCont l) ++
            (postBlank (rest.dropWhile (fun l => isListItem l || isCont l)) ++
              fixLoop fuel
                (some ((rest.takeWhile (fun l => isListItem l || isCont l)).getLast?.getD line))
                (rest.dropWhile (fun l => isListItem l || isCont l)))) := by
  simp only [fixLoop, hh, hf, hl, Bool.false_eq_true, if_false, if_true]

theorem fixLoop_plain (fuel : Nat) (prev : Option Line) (line : Line)
    (rest : List Line) (hh : isHeading line = false) (hf : isFence line = false)
    (hl : isListItem line = false) :
    fixLoop (fuel + 1) prev (line :: rest) = line :: fixLoop fuel (some line) rest := by
  simp only [fixLoop, hh, hf, hl, Bool.false_eq_true, if_false]

theorem fixLoop_fuel_eq (fuel fuel' : Nat) (prev : Option Line) (doc : List Line)
    (h : doc.length ≤ fuel) (h' : doc.length ≤ fuel') :
    fixLoop fuel prev doc = fixLoop fuel' prev doc := by
  induction fuel generalizing fuel' prev doc with
  | zero =>
    have : doc = [] := List.eq_nil_of_length_eq_zero (Nat.le_zero.mp h)
    rw [this, fixLoop_nil, fixLoop_nil]
  | succ f ih =>
    cases doc with
    | nil => rw [fixLoop_nil, fixLoop_nil]
    | cons line rest =>
      simp only [List.length_cons] at h h'
      cases fuel' with
      | zero => omega
      | succ f' =>
        by_cases hh : isHeading line = true
        · rw [fixLoop_heading f _ _ _ hh, fixLoop_heading f' _ _ _ hh,
            ih f' (some line) rest (by omega) (by omega)]
        · simp only [Bool.not_eq_true] at hh
          by_cases hf : isFence line = true
          · cases hd : rest.dropWhile (fun l => !isClosingFence l) with
            | nil =>
              rw [fixLoop_fence_unterm f _ _ _ hh hf hd,
                fixLoop_fence_unterm f' _ _ _ hh hf hd]
            | cons close rest2 =>
              have hlen : rest2.length + 1 ≤ rest.length := by
                have := dropWhile_length_le (fun l => !isClosingFence l) rest
                rw [hd] at this
                simpa using this
              rw [fixLoop_fence_close f _ _ _ _ _ hh hf hd,
                fixLoop_fence_close f' _ _ _ _ _ hh hf hd,
                ih f' (some close) rest2 (by omega) (by omega)]
          · simp only [Bool.not_eq_true] at hf
            by_cases hl : isListItem line = true
            · have hlen : (rest.dropWhile (fun l => isListItem l || isCont l)).length
                  ≤ rest.length := dropWhile_length_le _ rest
              rw [fixLoop_list f _ _ _ hh hf hl, fixLoop_list f' _ _ _ hh hf hl,
                ih f' _ _ (by omega) (by omega)]
            · simp only [Bool.not_eq_true] at hl
              rw [fixLoop_plain f _ _ _ hh hf hl, fixLoop_plain f' _ _ _ hh hf hl,
                ih f' (some line) rest (by omega) (by omega)]

/-! ## Inserted blanks are empty lines -/

theorem mem_pre_empty (b : Bool) (x : Line)
    (h : x ∈ (if b then [([] : Line)] else [])) : x = [] := by
  cases b with
  | true => simpa using h
  | false => simp at h

theorem mem_postBlank (r : List Line) (x : Line) (h : x ∈ postBlank r) : x = [] := by
  cases r with
  | nil => simp [postBlank] at h
  | cons a t =>
    rw [show postBlank (a :: t) = if isBlank a then [] else [[]] from rfl] at h
    by_cases hb : isBlank a = true
    · rw [if_pos hb] at h
      simp at h
    · rw [if_neg hb] at h
      simpa using h

theorem mem_listPre (p : Option Line) (x : Line) (h : x ∈ listPre p) : x = [] := by
  cases p with
  | none => simp [listPre] at h
  | some q =>
    rw [show listPre (some q) = if !isListItem q && !isBlank q then [[]] else [] from rfl] at h
    by_cases hb : (!isListItem q && !isBlank q) = true
    · rw [if_pos hb] at h
      simpa using h
    · rw [if_neg hb] at h
      simp at h

/-! ## The loop emits no newline characters and never empties a document -/

theorem rstripColon_no_newline (l : Line) (h : '\n' ∉ l) : '\n' ∉ rstripColon l := by
  unfold rstripColon
  split
  · intro hm
    exact h (List.mem_of_mem_dropLast hm)
  · exact h

theorem fixLoop_zero (prev : Option Line) (doc : List Line) :
    fixLoop 0 prev doc = [] := by
  cases doc <;> rfl

theorem fixLoop_no_newline (fuel : Nat) : ∀ (prev : Option Line) (doc : List Line),
    (∀ l ∈ doc, '\n' ∉ l) → ∀ x ∈ fixLoop fuel prev doc, '\n' ∉ x := by
  induction fuel with
  | zero =>
    intro prev doc _ x hx
    rw [fixLoop_zero] at hx
    simp at hx
  | succ f ih =>
    intro prev doc h x hx
    cases doc with
    | nil =>
      rw [fixLoop_nil] at hx
      simp at hx
    | cons line rest =>
      have hline : '\n' ∉ line := h line (by simp)
      have hrest : ∀ l ∈ rest, '\n' ∉ l := fun l hl => h l (List.mem_cons_of_mem _ hl)
      by_cases hh : isHeading line = true
      · rw [fixLoop_heading f _ _ _ hh] at hx
        rcases List.mem_append.mp hx with h1 | h2
        · rw [mem_pre_empty _ _ h1]
          simp
        · rcases List.mem_cons.mp h2 with h3 | h4
          · rw [h3]
            exact rstripColon_no_newline line hline
          · rcases List.mem_append.mp h4 with h5 | h6
            · rw [mem_postBlank _ _ h5]
              simp
            · exact ih (some line) rest hrest x h6
      · simp only [Bool.not_eq_true] at hh
        by_cases hf : isFence line = true
        · cases hd : rest.dropWhile (fun l => !isClosingFence l) with
          | nil =>
            rw [fixLoop_fence_unterm f _ _ _ hh hf hd] at hx
            rcases List.mem_append.mp hx with h1 | h2
            · rw [mem_pre_empty _ _ h1]
              simp
            · rcases List.mem_cons.mp h2 with h3 | h4
              · rw [h3]; exact hline
              · exact hrest x h4
          | cons close rest2 =>
            rw [fixLoop_fence_close f _ _ _ _ _ hh hf hd] at hx
            have hrest2 : ∀ l ∈ rest2, '\n' ∉ l := fun l hl =>
              hrest l (mem_of_mem_dropWhile _ _ _ (hd ▸ List.mem_cons_of_mem _ hl))
            rcases List.mem_append.mp hx with h1 | h2
            · rw [mem_pre_empty _ _ h1]
              simp
            · rcases List.mem_cons.mp h2 with h3 | h4
              · rw [h3]; exact hline
              · rcases List.mem_append.mp h4 with h5 | h6
                · exact hrest x (mem_of_mem_takeWhile _ _ _ h5)
                · rcases List.mem_cons.mp h6 with h7 | h8
                  · rw [h7]
                    exact hrest close (mem_of_mem_dropWhile _ _ _
                      (hd ▸ List.mem_cons_self _ _))
                  · rcases List.mem_append.mp h8 with h9 | h10
                    · rw [mem_postBlank _ _ h9]
                      simp
                    · exact ih (some close) rest2 hrest2 x h10
        · simp only [Bool.not_eq_true] at hf
          by_cases hl : isListItem line = true
          · rw [fixLoop_list f _ _ _ hh hf hl] at hx
            have hafter : ∀ l ∈ rest.dropWhile (fun l => isListItem l || isCont l),
                '\n' ∉ l := fun l hl2 => hrest l (mem_of_mem_dropWhile _ _ _ hl2)
            rcases List.mem_append.mp hx with h1 | h2
            · rw [mem_listPre _ _ h1]
              simp
            · rcases List.mem_cons.mp h2 with h3 | h4
              · rw [h3]; exact hline
              · rcases List.mem_append.mp h4 with h5 | h6
                · exact hrest x (mem_of_mem_takeWhile _ _ _ h5)
                · rcases List.mem_append.mp h6 with h7 | h8
                  · rw [mem_postBlank _ _ h7]
                    simp
                  · exact ih _ _ hafter x h8
          · simp only [Bool.not_eq_true] at hl
            rw [fixLoop_plain f _ _ _ hh hf hl] at hx
            rcases List.mem_cons.mp hx with h1 | h2
            · rw [h1]; exact hline
            · exact ih (some line) rest hrest x h2

theorem fixLoop_cons_ne_nil (fuel : Nat) (prev : Option Line) (line : Line)
    (rest : List Line) : fixLoop (fuel + 1) prev (line :: rest) ≠ [] := by
  by_cases hh : isHeading line = true
  · rw [fixLoop_heading fuel _ _ _ hh]
    simp
  · simp only [Bool.not_eq_true] at hh
    by_cases hf : isFence line = true
    · cases hd : rest.dropWhile (fun l => !isClosingFence l) with
      | nil =>
        rw [fixLoop_fence_unterm fuel _ _ _ hh hf hd]
        simp
      | cons close rest2 =>
        rw [fixLoop_fence_close fuel _ _ _ _ _ hh hf hd]
        simp
    · simp only [Bool.not_eq_true] at hf
      by_cases hl : isListItem line = true
      · rw [fixLoop_list fuel _ _ _ hh hf hl]
        simp
      · simp only [Bool.not_eq_true] at hl
        rw [fixLoop_plain fuel _ _ _ hh hf hl]
        simp

/-- The lines of the final output are exactly the collapsed lines of pass
one: joining and re-splitting is the identity here. -/
theorem splitLines_fix (x : List Char) :
    splitLines (fix_markdown_formatting x)
      = collapseBlanks false (fixLines (splitLines x)) := by
  unfold fix_markdown_formatting
  apply split_join
  · obtain ⟨l, ls, hs⟩ : ∃ l ls, splitLines x = l :: ls := by
      cases hsp : splitLines x with
      | nil => exact absurd hsp (splitLines_ne_nil x)
      | cons l ls => exact ⟨l, ls, rfl⟩
    rw [hs]
    unfold fixLines
    rw [show (l :: ls).length = ls.length + 1 from rfl]
    cases hF : fixLoop (ls.length + 1) none (l :: ls) with
    | nil => exact absurd hF (fixLoop_cons_ne_nil _ _ _ _)
    | cons a t => exact collapse_ne_nil a t
  · intro l hl
    exact fixLoop_no_newline _ _ _
      (fun y hy => mem_splitLines_no_newline x y hy) l (collapse_mem _ _ _ hl)

/-- C5: the output of the formatter never contains two consecutive blank
lines, a blank line being one that is empty or whitespace-only. -/
theorem output_no_two_blank_lines (content : List Char) :
    List.Chain' (fun a c => ¬(isBlank a = true ∧ isBlank c = true))
      (splitLines (fix_markdown_formatting content)) := by
  rw [splitLines_fix]
  exact collapse_chain_nb false _

/-! ## Code-fence block handling (claims C2 and C6) -/

/-- C2 (amended): whenever the scan of pass one reaches an opening fence
(`prev` ranges over all loop states, `none` covering a fence on the first
line) whose remaining lines decompose as `body ++ close :: rest` with no
closing-fence line inside `body`, and `body` contains no two consecutive
blank lines, then the output reproduces `fence :: body ++ [close]`
contiguously and byte-for-byte.  The blank-run proviso is forced: pass two
collapses blank runs inside code blocks too (see the counterexample). -/
theorem fence_block_infix (fuel : Nat) (prev : Option Line) (fence close : Line)
    (body rest : List Line) (hf : isFence fence = true)
    (hb : ∀ l ∈ body, isClosingFence l = false) (hc : isClosingFence close = true)
    (hchain : List.Chain' (fun a c => ¬(isBlank a = true ∧ isBlank c = true)) body) :
    ∃ pre post,
      collapseBlanks false (fixLoop (fuel + 1) prev (fence :: (body ++ close :: rest)))
        = pre ++ (fence :: (body ++ [close])) ++ post := by
  have hh : isHeading fence = false := fence_not_heading _ hf
  obtain ⟨htake, hdrop⟩ := takeWhile_eq_of_all (fun l => !isClosingFence l) body
    (fun x hx => by
      show (!isClosingFence x) = true
      rw [hb x hx]
      rfl) (close :: rest)
    (fun c hc2 => by
      simp only [List.head?_cons, Option.mem_def, Option.some.injEq] at hc2
      subst hc2
      show (!isClosingFence close) = false
      rw [hc]
      rfl)
  rw [fixLoop_fence_close fuel _ _ _ _ _ hh hf hdrop, htake]
  by_cases hp : prevNonBlank prev = true
  · rw [if_pos hp]
    rw [show [([] : Line)] ++ fence ::
        (body ++ close :: (postBlank rest ++ fixLoop fuel (some close) rest))
        = ([] : Line) :: fence ::
          (body ++ close :: (postBlank rest ++ fixLoop fuel (some close) rest)) from rfl]
    rw [collapse_false_cons_blank _ _ empty_line_blank,
      collapse_cons_nonblank _ _ _ (fence_not_blank _ hf),
      collapse_append_chain body hchain close (closing_not_blank _ hc) _]
    refine ⟨[[]], collapseBlanks false (postBlank rest ++ fixLoop fuel (some close) rest), ?_⟩
    simp
  · rw [if_neg hp, List.nil_append,
      collapse_cons_nonblank _ _ _ (fence_not_blank _ hf),
      collapse_append_chain body hchain close (closing_not_blank _ hc) _]
    refine ⟨[], collapseBlanks false (postBlank rest ++ fixLoop fuel (some close) rest), ?_⟩
    simp

/-- Witness for `fence_block_infix`: the block `` ``` ``/`x`/`` ``` `` at
the start of a document, preceded by a non-blank paragraph state. -/
theorem fence_block_infix_witness :
    (isFence "```".data = true) ∧
      (∀ l ∈ [("x".data : Line)], isClosingFence l = false) ∧
      (isClosingFence "```".data = true) ∧
      (∃ pre post,
        collapseBlanks false
            (fixLoop 1 (some "Para".data) ("```".data :: (["x".data] ++ "```".data :: [])))
          = pre ++ ("```".data :: (["x".data] ++ ["```".data])) ++ post) :=
  ⟨by decide, by decide, by decide,
    fence_block_infix 0 (some "Para".data) "```".data "```".data ["x".data] []
      (by decide) (by decide) (by decide) (by simp)⟩

/-- C2 (counterexample): on `"```\na\n\n\nb\n```"` the fence block is
well-formed — opening fence, body `["a", "", "", "b"]` with no closing
fence inside, closing fence — yet the body lines do not appear
byte-for-byte in the output, in order: pass two collapses the blank run
inside the code block, so the body is not even an infix of the output
lines. -/
theorem code_fidelity_counterexample :
    (splitLines "```\na\n\n\nb\n```".data
        = ["```".data, "a".data, [], [], "b".data, "```".data]) ∧
      isFence "```".data = true ∧ isClosingFence "```".data = true ∧
      (∀ l ∈ [("a".data : Line), [], [], "b".data], isClosingFence l = false) ∧
      ¬ ([("a".data : Line), [], [], "b".data]
          <:+: splitLines (fix_markdown_formatting "```\na\n\n\nb\n```".data)) := by
  decide

/-- C6 (amended): an opening fence with no closing-fence line after it
consumes the remainder of the document: pass one copies every remaining
line verbatim, applying no heading or list processing; the final output
additionally applies only the global blank-run collapse to those lines. -/
theorem unterminated_fence_verbatim (fuel : Nat) (prev : Option Line)
    (fence : Line) (rest : List Line) (hf : isFence fence = true)
    (hn : ∀ l ∈ rest, isClosingFence l = false) :
    fixLoop (fuel + 1) prev (fence :: rest)
        = (if prevNonBlank prev then [[]] else []) ++ fence :: rest ∧
      collapseBlanks false (fixLoop (fuel + 1) prev (fence :: rest))
        = (if prevNonBlank prev then [[]] else []) ++
            fence :: collapseBlanks false rest := by
  have hh : isHeading fence = false := fence_not_heading _ hf
  have hdrop : rest.dropWhile (fun l => !isClosingFence l) = [] := by
    rw [List.dropWhile_eq_nil_iff]
    intro x hx
    rw [hn x hx]
    rfl
  have h1 := fixLoop_fence_unterm fuel prev fence rest hh hf hdrop
  refine ⟨h1, ?_⟩
  rw [h1]
  by_cases hp : prevNonBlank prev = true
  · rw [if_pos hp]
    rw [show [([] : Line)] ++ fence :: rest = ([] : Line) :: fence :: rest from rfl]
    rw [collapse_false_cons_blank _ _ empty_line_blank,
      collapse_cons_nonblank _ _ _ (fence_not_blank _ hf)]
    rfl
  · rw [if_neg hp, List.nil_append,
      collapse_cons_nonblank _ _ _ (fence_not_blank _ hf), List.nil_append]

/-- Witness for `unterminated_fence_verbatim`: `"x\n```\ncode"` reaching
the fence with previous line `"x"`. -/
theorem unterminated_fence_verbatim_witness :
    (isFence "```".data = true) ∧
      (∀ l ∈ [("code".data : Line)], isClosingFence l = false) ∧
      (fixLoop 1 (some "x".data) ("```".data :: ["code".data])
          = (if prevNonBlank (some "x".data) then [[]] else []) ++
              "```".data :: ["code".data] ∧
        collapseBlanks false (fixLoop 1 (some "x".data) ("```".data :: ["code".data]))
          = (if prevNonBlank (some "x".data) then [[]] else []) ++
              "```".data :: collapseBlanks false ["code".data]) :=
  ⟨by decide, by decide,
    unterminated_fence_verbatim 0 (some "x".data) "```".data ["code".data]
      (by decide) (by decide)⟩

/-- C6 (counterexample): on `"```\na\n\n\nb"` every line after the
unterminated fence is block content, yet the final output is not a
verbatim copy of those lines: the blank run inside the block is collapsed
by pass two. -/
theorem unterminated_counterexample :
    (splitLines "```\na\n\n\nb".data
        = ["```".data, "a".data, [], [], "b".data]) ∧
      isFence "```".data = true ∧
      (∀ l ∈ [("a".data : Line), [], [], "b".data], isClosingFence l = false) ∧
      splitLines (fix_markdown_formatting "```\na\n\n\nb".data)
        ≠ ["```".data, "a".data, [], [], "b".data] := by
  decide

/-! ## Non-blank lines are preserved (claims C9 and C4) -/

theorem filter_pre (b : Bool) :
    (if b then [([] : Line)] else []).filter (fun l => !isBlank l) = [] := by
  cases b <;> rfl

theorem filter_postBlank (r : List Line) :
    (postBlank r).filter (fun l => !isBlank l) = [] := by
  cases r with
  | nil => rfl
  | cons a t =>
    rw [show postBlank (a :: t) = if isBlank a then [] else [[]] from rfl]
    by_cases hb : isBlank a = true
    · rw [if_pos hb]
      rfl
    · rw [if_neg hb]
      rfl

theorem filter_listPre (p : Option Line) :
    (listPre p).filter (fun l => !isBlank l) = [] := by
  cases p with
  | none => rfl
  | some q =>
    rw [show listPre (some q) = if !isListItem q && !isBlank q then [[]] else [] from rfl]
    by_cases hb : (!isListItem q && !isBlank q) = true
    · rw [if_pos hb]
      rfl
    · rw [if_neg hb]
      rfl

theorem dropLast_cons_cons (c d : Char) (t : List Char) :
    (c :: d :: t).dropLast = c :: (d :: t).dropLast := rfl

theorem rstrip_heading_not_blank (l : Line) (h : isHeading l = true) :
    isBlank (rstripColon l) = false := by
  obtain ⟨t, rfl⟩ := isHeading_head l h
  unfold rstripColon
  split
  · cases t with
    | nil => exact absurd h (by decide)
    | cons c t2 =>
      rw [dropLast_cons_cons]
      simp [isBlank, isPySpace]
  · exact heading_not_blank _ h

theorem filter_cons_nonblank (l : Line) (rest : List Line) (h : isBlank l = false) :
    (l :: rest).filter (fun x => !isBlank x) = l :: rest.filter (fun x => !isBlank x) := by
  rw [List.filter_cons, if_pos (by rw [h]; rfl)]

theorem filter_cons_blank (l : Line) (rest : List Line) (h : isBlank l = true) :
    (l :: rest).filter (fun x => !isBlank x) = rest.filter (fun x => !isBlank x) := by
  rw [List.filter_cons, if_neg (by rw [h]; simp)]

theorem filter_collapse (b : Bool) (L : List Line) :
    (collapseBlanks b L).filter (fun l => !isBlank l)
      = L.filter (fun l => !isBlank l) := by
  induction L generalizing b with
  | nil => rfl
  | cons l rest ih =>
    rw [collapse_cons, List.filter_append]
    by_cases hb : isBlank l = true
    · rw [filter_cons_blank _ _ hb, hb]
      have h1 : (if (true && b) = true then ([] : List Line) else [l]).filter
          (fun x => !isBlank x) = [] := by
        cases b with
        | true => rfl
        | false =>
          rw [show (if (true && false) = true then ([] : List Line) else [l]) = [l] from rfl]
          rw [show ([l].filter (fun x => !isBlank x))
              = ([] : List Line) from by rw [List.filter_cons, if_neg (by rw [hb]; simp)]; rfl]
      rw [h1, List.nil_append, ih]
    · simp only [Bool.not_eq_true] at hb
      rw [filter_cons_nonblank _ _ hb, hb]
      rw [show (if (false && b) = true then ([] : List Line) else [l]) = [l] from by simp]
      rw [show ([l].filter (fun x => !isBlank x)) = [l] from by
        rw [List.filter_cons, if_pos (by rw [hb]; rfl)]; rfl]
      rw [ih]
      rfl

theorem forall₂_app {R : Line → Line → Prop} {a b c d : List Line}
    (h1 : List.Forall₂ R a b) (h2 : List.Forall₂ R c d) :
    List.Forall₂ R (a ++ c) (b ++ d) :=
  List.rel_append h1 h2

theorem dropWhile_head_not {α : Type} (p : α → Bool) (l : List α) (a : α)
    (t : List α) (h : l.dropWhile p = a :: t) : p a = false := by
  induction l with
  | nil => simp at h
  | cons x xs ih =>
    rw [List.dropWhile_cons] at h
    by_cases hp : p x = true
    · rw [if_pos hp] at h
      exact ih h
    · rw [if_neg hp] at h
      obtain ⟨h1, -⟩ := List.cons.injEq .. ▸ h
      simp only [List.cons.injEq] at h
      rw [← h.1]
      simpa using hp

/-- Pass one relates the non-blank lines of its output one-to-one, in
order, to the non-blank lines of its input: each is either copied
verbatim, or is a heading processed by the loop with one trailing colon
stripped. -/
theorem fixLoop_filter_forall2 (fuel : Nat) : ∀ (prev : Option Line) (doc : List Line),
    doc.length ≤ fuel →
    List.Forall₂ (fun a b => b = a ∨ (isHeading a = true ∧ b = rstripColon a))
      (doc.filter (fun l => !isBlank l))
      ((fixLoop fuel prev doc).filter (fun l => !isBlank l)) := by
  induction fuel with
  | zero =>
    intro prev doc h
    have : doc = [] := List.eq_nil_of_length_eq_zero (Nat.le_zero.mp h)
    subst this
    exact List.Forall₂.nil
  | succ f ih =>
    intro prev doc h
    cases doc with
    | nil => exact List.Forall₂.nil
    | cons line rest =>
      simp only [List.length_cons] at h
      by_cases hh : isHeading line = true
      · rw [fixLoop_heading f _ _ _ hh, List.filter_append, filter_pre, List.nil_append,
          filter_cons_nonblank _ _ (rstrip_heading_not_blank _ hh), List.filter_append,
          filter_postBlank, List.nil_append,
          filter_cons_nonblank _ _ (heading_not_blank _ hh)]
        exact List.Forall₂.cons (Or.inr ⟨hh, rfl⟩) (ih (some line) rest (by omega))
      · simp only [Bool.not_eq_true] at hh
        by_cases hf : isFence line = true
        · cases hd : rest.dropWhile (fun l => !isClosingFence l) with
          | nil =>
            rw [fixLoop_fence_unterm f _ _ _ hh hf hd, List.filter_append, filter_pre,
              List.nil_append, filter_cons_nonblank _ _ (fence_not_blank _ hf)]
            exact List.Forall₂.cons (Or.inl rfl) (List.forall₂_same.mpr fun x _ => Or.inl rfl)
          | cons close rest2 =>
            have hclose : isClosingFence close = true := by
              have := dropWhile_head_not (fun l => !isClosingFence l) rest close rest2 hd
              simpa using this
            have hbF : isBlank line = false := fence_not_blank _ hf
            have hbC : isBlank close = false := closing_not_blank _ hclose
            have hrest : rest
                = rest.takeWhile (fun l => !isClosingFence l) ++ close :: rest2 := by
              rw [← hd, List.takeWhile_append_dropWhile]
            have hlen : rest2.length + 1 ≤ rest.length := by
              have := dropWhile_length_le (fun l => !isClosingFence l) rest
              rw [hd] at this
              simpa using this
            have hL : (line :: (rest.takeWhile (fun l => !isClosingFence l)
                  ++ close :: rest2)).filter (fun l => !isBlank l)
                = line :: ((rest.takeWhile (fun l => !isClosingFence l)).filter
                    (fun l => !isBlank l) ++ close :: rest2.filter (fun l => !isBlank l)) := by
              rw [filter_cons_nonblank _ _ hbF, List.filter_append,
                filter_cons_nonblank _ _ hbC]
            have hR : ((if prevNonBlank prev then [[]] else []) ++
                  line :: (rest.takeWhile (fun l => !isClosingFence l) ++
                    close :: (postBlank rest2 ++ fixLoop f (some close) rest2))).filter
                    (fun l => !isBlank l)
                = line :: ((rest.takeWhile (fun l => !isClosingFence l)).filter
                    (fun l => !isBlank l) ++
                    close :: (fixLoop f (some close) rest2).filter (fun l => !isBlank l)) := by
              rw [List.filter_append, filter_pre, List.nil_append,
                filter_cons_nonblank _ _ hbF, List.filter_append,
                filter_cons_nonblank _ _ hbC, List.filter_append, filter_postBlank,
                List.nil_append]
            conv_lhs => rw [hrest]
            rw [fixLoop_fence_close f _ _ _ _ _ hh hf hd, hL, hR]
            refine List.Forall₂.cons (Or.inl rfl) (forall₂_app
              (List.forall₂_same.mpr fun x _ => Or.inl rfl)
              (List.Forall₂.cons (Or.inl rfl) (ih (some close) rest2 (by omega))))
        · simp only [Bool.not_eq_true] at hf
          by_cases hl : isListItem line = true
          · have hbL : isBlank line = false := listItem_not_blank _ hl
            have hrest : rest = rest.takeWhile (fun l => isListItem l || isCont l)
                ++ rest.dropWhile (fun l => isListItem l || isCont l) :=
              (List.takeWhile_append_dropWhile _ _).symm
            have hlen : (rest.dropWhile (fun l => isListItem l || isCont l)).length
                ≤ rest.length := dropWhile_length_le _ rest
            have hL : (line :: (rest.takeWhile (fun l => isListItem l || isCont l)
                  ++ rest.dropWhile (fun l => isListItem l || isCont l))).filter
                    (fun l => !isBlank l)
                = line :: ((rest.takeWhile (fun l => isListItem l || isCont l)).filter
                    (fun l => !isBlank l) ++
                    (rest.dropWhile (fun l => isListItem l || isCont l)).filter
                      (fun l => !isBlank l)) := by
              rw [filter_cons_nonblank _ _ hbL, List.filter_append]
            have hR : (listPre prev ++
                  line :: (rest.takeWhile (fun l => isListItem l || isCont l) ++
                    (postBlank (rest.dropWhile (fun l => isListItem l || isCont l)) ++
                      fixLoop f
                        (some ((rest.takeWhile (fun l =>
                          isListItem l || isCont l)).getLast?.getD line))
                        (rest.dropWhile (fun l => isListItem l || isCont l))))).filter
                    (fun l => !isBlank l)
                = line :: ((rest.takeWhile (fun l => isListItem l || isCont l)).filter
                    (fun l => !isBlank l) ++
                    (fixLoop f
                      (some ((rest.takeWhile (fun l =>
                        isListItem l || isCont l)).getLast?.getD line))
                      (rest.dropWhile (fun l => isListItem l || isCont l))).filter
                      (fun l => !isBlank l)) := by
              rw [List.filter_append, filter_listPre, List.nil_append,
                filter_cons_nonblank _ _ hbL, List.filter_append, List.filter_append,
                filter_postBlank, List.nil_append]
            conv_lhs => rw [hrest]
            rw [fixLoop_list f _ _ _ hh hf hl, hL, hR]
            refine List.Forall₂.cons (Or.inl rfl) (forall₂_app
              (List.forall₂_same.mpr fun x _ => Or.inl rfl) (ih _ _ (by omega)))
          · simp only [Bool.not_eq_true] at hl
            rw [fixLoop_plain f _ _ _ hh hf hl]
            by_cases hb : isBlank line = true
            · rw [filter_cons_blank _ _ hb, filter_cons_blank _ _ hb]
              exact ih (some line) rest (by omega)
            · simp only [Bool.not_eq_true] at hb
              rw [filter_cons_nonblank _ _ hb, filter_cons_nonblank _ _ hb]
              exact List.Forall₂.cons (Or.inl rfl) (ih (some line) rest (by omega))

/-- C9: the non-blank lines of the output correspond one-to-one, in the
same order, to the non-blank lines of the input; each output line equals
its input line except that a heading line processed by the main loop may
have one trailing colon removed.  No non-blank line is dropped,
duplicated, or reordered. -/
theorem nonblank_lines_preserved (content : List Char) :
    List.Forall₂ (fun a b => b = a ∨ (isHeading a = true ∧ b = rstripColon a))
      ((splitLines content).filter (fun l => !isBlank l))
      ((splitLines (fix_markdown_formatting content)).filter (fun l => !isBlank l)) := by
  rw [splitLines_fix, filter_collapse]
  exact fixLoop_filter_forall2 _ none _ (le_refl _)

/-! ## Trailing-colon stripping (claim C4) -/

/-- With no code-fence lines in the document, every line of pass one's
output is the corresponding input line with `if isHeading then
rstripColon` applied: headings are exactly the current lines the loop
strips. -/
theorem fixLoop_filter_map (fuel : Nat) : ∀ (prev : Option Line) (doc : List Line),
    doc.length ≤ fuel → (∀ l ∈ doc, isFence l = false) →
    (fixLoop fuel prev doc).filter (fun l => !isBlank l)
      = (doc.filter (fun l => !isBlank l)).map
          (fun a => if isHeading a = true then rstripColon a else a) := by
  induction fuel with
  | zero =>
    intro prev doc h _
    have : doc = [] := List.eq_nil_of_length_eq_zero (Nat.le_zero.mp h)
    subst this
    rfl
  | succ f ih =>
    intro prev doc h hnf
    cases doc with
    | nil => rfl
    | cons line rest =>
      simp only [List.length_cons] at h
      have hnfr : ∀ l ∈ rest, isFence l = false := fun l hl =>
        hnf l (List.mem_cons_of_mem _ hl)
      by_cases hh : isHeading line = true
      · rw [fixLoop_heading f _ _ _ hh, List.filter_append, filter_pre, List.nil_append,
          filter_cons_nonblank _ _ (rstrip_heading_not_blank _ hh), List.filter_append,
          filter_postBlank, List.nil_append,
          filter_cons_nonblank _ _ (heading_not_blank _ hh), List.map_cons, if_pos hh,
          ih (some line) rest (by omega) hnfr]
      · simp only [Bool.not_eq_true] at hh
        have hf : isFence line = false := hnf line (by simp)
        by_cases hl : isListItem line = true
        · have hbL : isBlank line = false := listItem_not_blank _ hl
          have hrest : rest = rest.takeWhile (fun l => isListItem l || isCont l)
              ++ rest.dropWhile (fun l => isListItem l || isCont l) :=
            (List.takeWhile_append_dropWhile _ _).symm
          have hlen : (rest.dropWhile (fun l => isListItem l || isCont l)).length
              ≤ rest.length := dropWhile_length_le _ rest
          have hafter : ∀ l ∈ rest.dropWhile (fun l => isListItem l || isCont l),
              isFence l = false := fun l hl2 => hnfr l (mem_of_mem_dropWhile _ _ _ hl2)
          have hbody : ∀ x ∈ (rest.takeWhile (fun l => isListItem l || isCont l)).filter
              (fun l => !isBlank l),
              (if isHeading x = true then rstripColon x else x) = x := by
            intro x hx
            have hx2 := (List.mem_filter.mp hx).1
            have := all_mem_takeWhile _ _ _ hx2
            rcases Bool.or_eq_true .. ▸ this with h1 | h1
            · rw [if_neg (by rw [listItem_not_heading x h1]; simp)]
            · rw [if_neg (by rw [cont_not_heading x h1]; simp)]
          conv_lhs => rw [fixLoop_list f _ _ _ hh hf hl]
          conv_rhs => rw [hrest]
          rw [List.filter_append, filter_listPre, List.nil_append,
            filter_cons_nonblank _ _ hbL, List.filter_append, List.filter_append,
            filter_postBlank, List.nil_append,
            filter_cons_nonblank _ _ hbL, List.map_cons,
            if_neg (by rw [listItem_not_heading line hl]; simp), List.filter_append,
            List.map_append, ih _ _ (by omega) hafter,
            (List.map_congr_left hbody).trans (List.map_id _)]
        · simp only [Bool.not_eq_true] at hl
          rw [fixLoop_plain f _ _ _ hh hf hl]
          by_cases hb : isBlank line = true
          · rw [filter_cons_blank _ _ hb, filter_cons_blank _ _ hb,
              ih (some line) rest (by omega) hnfr]
          · simp only [Bool.not_eq_true] at hb
            rw [filter_cons_nonblank _ _ hb, filter_cons_nonblank _ _ hb, List.map_cons,
              if_neg (by rw [hh]; simp), ih (some line) rest (by omega) hnfr]

/-- C4 (amended): in a document containing no code-fence delimiter lines,
every heading line ending in `:` has exactly that one trailing colon
removed (and nothing else), a heading line not ending in `:` is unchanged,
and every non-heading line is left untouched.  The restriction is forced:
a heading inside a fenced code block is copied verbatim, colon included
(see the counterexample). -/
theorem colon_stripping_no_fences (content : List Char)
    (hnf : ∀ l ∈ splitLines content, isFence l = false) :
    List.Forall₂ (fun a b =>
        (isHeading a = true ∧ endsColon a = true → b = a.dropLast) ∧
        (isHeading a = true ∧ endsColon a = false → b = a) ∧
        (isHeading a = false → b = a))
      ((splitLines content).filter (fun l => !isBlank l))
      ((splitLines (fix_markdown_formatting content)).filter (fun l => !isBlank l)) := by
  rw [splitLines_fix, filter_collapse]
  show List.Forall₂ _ _ ((fixLoop (splitLines content).length none
    (splitLines content)).filter (fun l => !isBlank l))
  rw [fixLoop_filter_map _ none _ (le_refl _) hnf, List.forall₂_map_right_iff]
  refine List.forall₂_same.mpr fun x _ => ⟨?_, ?_, ?_⟩
  · rintro ⟨h1, h2⟩
    rw [if_pos h1]
    unfold rstripColon
    rw [if_pos h2]
  · rintro ⟨h1, h2⟩
    rw [if_pos h1]
    unfold rstripColon
    rw [h2]
    rfl
  · intro h1
    rw [if_neg (by rw [h1]; simp)]

/-- Witness for `colon_stripping_no_fences`: the fence-free document
`"# Title:\nSome text"`. -/
theorem colon_stripping_no_fences_witness :
    (∀ l ∈ splitLines "# Title:\nSome text".data, isFence l = false) ∧
      List.Forall₂ (fun a b =>
        (isHeading a = true ∧ endsColon a = true → b = a.dropLast) ∧
        (isHeading a = true ∧ endsColon a = false → b = a) ∧
        (isHeading a = false → b = a))
      ((splitLines "# Title:\nSome text".data).filter (fun l => !isBlank l))
      ((splitLines (fix_markdown_formatting "# Title:\nSome text".data)).filter
        (fun l => !isBlank l)) :=
  ⟨by decide, colon_stripping_no_fences _ (by decide)⟩

/-- C4 (counterexample): on `"```\n# H:\n```"` the line `"# H:"` is a
heading line ending in `:` (and the input's non-blank lines are copied
verbatim to the output, in order), yet its trailing colon is not removed
in the output: it sits inside a fenced code block. -/
theorem colon_stripping_counterexample :
    ¬ List.Forall₂ (fun a b =>
        (isHeading a = true ∧ endsColon a = true → b = a.dropLast) ∧
        (isHeading a = true ∧ endsColon a = false → b = a) ∧
        (isHeading a = false → b = a))
      ((splitLines "```\n# H:\n```".data).filter (fun l => !isBlank l))
      ((splitLines (fix_markdown_formatting "```\n# H:\n```".data)).filter
        (fun l => !isBlank l)) := by
  intro hcon
  have h1 : (splitLines "```\n# H:\n```".data).filter (fun l => !isBlank l)
      = ["```".data, "# H:".data, "```".data] := by decide
  have h2 : (splitLines (fix_markdown_formatting "```\n# H:\n```".data)).filter
      (fun l => !isBlank l) = ["```".data, "# H:".data, "```".data] := by decide
  rw [h1, h2] at hcon
  rcases hcon with - | ⟨-, hcon⟩
  rcases hcon with - | ⟨⟨hx, -, -⟩, -⟩
  have := hx ⟨by decide, by decide⟩
  exact absurd this (by decide)

/-! ## Structure of heading lines -/

theorem pyspace_ne_hash (c : Char) (h : isPySpace c = true) : c ≠ '#' := by
  intro hc
  rw [hc] at h
  exact absurd h (by decide)

theorem isHeading_iff (l : Line) : isHeading l = true ↔
    ∃ n c t, 1 ≤ n ∧ n ≤ 6 ∧ isPySpace c = true ∧
      l = List.replicate n '#' ++ c :: t := by
  constructor
  · intro h
    unfold isHeading at h
    simp only [Bool.and_eq_true, decide_eq_true_eq] at h
    obtain ⟨⟨h1, h2⟩, h3⟩ := h
    cases hd : l.dropWhile (fun c => c == '#') with
    | nil => rw [hd] at h3; exact absurd h3 (by simp)
    | cons c t =>
      rw [hd] at h3
      refine ⟨(l.takeWhile (fun c => c == '#')).length, c, t, h1, h2, h3, ?_⟩
      have htw : l.takeWhile (fun c => c == '#')
          = List.replicate (l.takeWhile (fun c => c == '#')).length '#' :=
        List.eq_replicate_of_mem (fun b hb => by
          have := all_mem_takeWhile _ _ _ hb
          simpa using this)
      conv_lhs => rw [← List.takeWhile_append_dropWhile (fun c => c == '#') l]
      rw [hd, ← htw]
  · rintro ⟨n, c, t, h1, h2, h3, rfl⟩
    have hc : (c == '#') = false := by
      simp only [beq_eq_false_iff_ne, ne_eq]
      exact pyspace_ne_hash c h3
    obtain ⟨htake, hdrop⟩ := takeWhile_eq_of_all (fun x => x == '#')
      (List.replicate n '#')
      (fun x hx => by rw [List.eq_of_mem_replicate hx]; rfl) (c :: t)
      (fun d hd => by
        simp only [List.head?_cons, Option.mem_def, Option.some.injEq] at hd
        subst hd
        exact hc)
    unfold isHeading
    simp only [htake, hdrop, List.length_replicate, Bool.and_eq_true, decide_eq_true_eq]
    exact ⟨⟨h1, h2⟩, h3⟩

theorem rstrip_heading (l : Line) (h : isHeading l = true) :
    isHeading (rstripColon l) = true := by
  unfold rstripColon
  by_cases he : endsColon l = true
  · rw [if_pos he]
    obtain ⟨n, c, t, h1, h2, h3, rfl⟩ := (isHeading_iff l).mp h
    rcases t.eq_nil_or_concat' with rfl | ⟨t2, x, rfl⟩
    · exfalso
      unfold endsColon at he
      rw [show List.replicate n '#' ++ [c] = (List.replicate n '#') ++ [c] from rfl,
        List.getLast?_concat] at he
      simp only [beq_iff_eq] at he
      subst he
      exact Bool.noConfusion h3
    · rw [show List.replicate n '#' ++ c :: (t2 ++ [x])
          = (List.replicate n '#' ++ c :: t2) ++ [x] from by simp,
        List.dropLast_concat]
      exact (isHeading_iff _).mpr ⟨n, c, t2, h1, h2, h3, rfl⟩
  · rw [if_neg he]
    exact h

theorem ends_colon_reverse (l : Line) :
    endsColon l = true ↔ ∃ t, l.reverse = ':' :: t := by
  unfold endsColon
  rw [List.getLast?_eq_head?_reverse]
  cases hr : l.reverse with
  | nil => simp
  | cons c t =>
    simp only [List.head?_cons, beq_iff_eq]
    constructor
    · rintro rfl
      exact ⟨t, rfl⟩
    · rintro ⟨t2, he⟩
      simp only [List.cons.injEq] at he
      exact he.1

theorem rstrip_no_colon (l : Line) (hcc : endsColonColon l = false) :
    endsColon (rstripColon l) = false := by
  unfold rstripColon
  by_cases he : endsColon l = true
  · rw [if_pos he]
    obtain ⟨t, ht⟩ := (ends_colon_reverse l).mp he
    by_contra hbad
    simp only [Bool.not_eq_false] at hbad
    obtain ⟨t2, ht2⟩ := (ends_colon_reverse _).mp hbad
    have hrev : l.dropLast.reverse = l.reverse.tail := by
      rcases l.eq_nil_or_concat' with rfl | ⟨L, b, rfl⟩
      · rfl
      · rw [List.dropLast_concat, List.reverse_concat']
        rfl
    rw [hrev, ht] at ht2
    have ht3 : t = ':' :: t2 := by simpa using ht2
    unfold endsColonColon at hcc
    rw [ht, ht3] at hcc
    simp at hcc
  · rw [if_neg he]
    simpa using he

theorem getLast?_cons_getD (line : Line) (body : List Line) :
    (line :: body).getLast? = some (body.getLast?.getD line) := by
  cases body with
  | nil => rfl
  | cons b bs =>
    rw [List.getLast?_cons_cons]
    cases hg : (b :: bs).getLast? with
    | none => simp at hg
    | some x => rfl

theorem chain'_and (R S : Line → Line → Prop) (l : List Line)
    (h1 : List.Chain' R l) (h2 : List.Chain' S l) :
    List.Chain' (fun a b => R a b ∧ S a b) l := by
  rw [List.chain'_iff_get] at h1 h2 ⊢
  exact fun i hi => ⟨h1 i hi, h2 i hi⟩

theorem chain'_of_no_heading (l : List Line) (h : ∀ x ∈ l, isHeading x = false) :
    List.Chain' (fun a b => (isHeading b = true → isBlank a = true) ∧
      (isHeading a = true → isBlank b = true)) l := by
  induction l with
  | nil => simp
  | cons x rest ih =>
    rw [List.chain'_cons']
    refine ⟨fun y hy => ⟨fun hhy => ?_, fun hhx => ?_⟩, ih fun z hz =>
      h z (List.mem_cons_of_mem _ hz)⟩
    · exfalso
      have : y ∈ rest := by
        cases rest with
        | nil => simp at hy
        | cons r t =>
          simp only [List.head?_cons, Option.mem_def, Option.some.injEq] at hy
          rw [← hy]
          exact List.mem_cons_self _ _
      rw [h y (List.mem_cons_of_mem _ this)] at hhy
      exact Bool.noConfusion hhy
    · exfalso
      rw [h x (List.mem_cons_self _ _)] at hhx
      exact Bool.noConfusion hhx

theorem collapse_false_head (L : List Line) :
    (collapseBlanks false L).head? = L.head? := by
  cases L with
  | nil => rfl
  | cons l rest =>
    rw [collapse_false_cons]
    rfl

/-! ## Heading isolation (claim C3) -/

theorem getLast?_mem_my (l : List Line) (x : Line) (h : l.getLast? = some x) :
    x ∈ l := by
  obtain ⟨hne, hx⟩ := List.mem_getLast?_eq_getLast
    (show x ∈ l.getLast? by rw [Option.mem_def]; exact h)
  rw [hx]
  exact List.getLast_mem hne

theorem hb_empty_left (y : Line) :
    (isHeading y = true → isBlank ([] : Line) = true) ∧
      (isHeading ([] : Line) = true → isBlank y = true) :=
  ⟨fun _ => rfl, fun h => absurd h (by decide)⟩

theorem hb_empty_right (x : Line) :
    (isHeading ([] : Line) = true → isBlank x = true) ∧
      (isHeading x = true → isBlank ([] : Line) = true) :=
  ⟨fun h => absurd h (by decide), fun _ => rfl⟩

theorem postBlank_nil : postBlank [] = [] := rfl

theorem postBlank_cons_blank (r : Line) (t : List Line) (h : isBlank r = true) :
    postBlank (r :: t) = [] := by
  rw [show postBlank (r :: t) = if isBlank r then [] else [[]] from rfl, if_pos h]

theorem postBlank_cons_nonblank (r : Line) (t : List Line) (h : isBlank r = false) :
    postBlank (r :: t) = [[]] := by
  rw [show postBlank (r :: t) = if isBlank r then [] else [[]] from rfl, if_neg (by rw [h]; simp)]

theorem listPre_elems (prev : Option Line) :
    listPre prev = [] ∨ listPre prev = [[]] := by
  cases prev with
  | none => exact Or.inl rfl
  | some p =>
    rw [show listPre (some p) = if !isListItem p && !isBlank p then [[]] else [] from rfl]
    by_cases h : (!isListItem p && !isBlank p) = true
    · rw [if_pos h]
      exact Or.inr rfl
    · rw [if_neg h]
      exact Or.inl rfl

/-- In a fence-free document, pass one keeps every heading line adjacent
only to blank lines (on the side where a neighbour exists); moreover a
heading can be the first emitted line only when the previous source line
was blank or absent, and a blank current line is always the first line
emitted by the remaining loop. -/
theorem fixLoop_chain_hb (fuel : Nat) : ∀ (prev : Option Line) (doc : List Line),
    doc.length ≤ fuel → (∀ l ∈ doc, isFence l = false) →
    List.Chain' (fun a b => (isHeading b = true → isBlank a = true) ∧
        (isHeading a = true → isBlank b = true)) (fixLoop fuel prev doc)
    ∧ (∀ h0, (fixLoop fuel prev doc).head? = some h0 → isHeading h0 = true →
        prevNonBlank prev = false)
    ∧ (∀ x, doc.head? = some x → isBlank x = true →
        (fixLoop fuel prev doc).head? = some x) := by
  induction fuel with
  | zero =>
    intro prev doc h _
    have hd : doc = [] := List.eq_nil_of_length_eq_zero (Nat.le_zero.mp h)
    subst hd
    refine ⟨by simp [fixLoop_nil], ?_, ?_⟩
    · intro h0 hh0
      rw [fixLoop_nil] at hh0
      simp at hh0
    · intro x hx
      simp at hx
  | succ f ih =>
    intro prev doc h hnf
    cases doc with
    | nil =>
      refine ⟨by simp [fixLoop_nil], ?_, ?_⟩
      · intro h0 hh0
        rw [fixLoop_nil] at hh0
        simp at hh0
      · intro x hx
        simp at hx
    | cons line rest =>
      simp only [List.length_cons] at h
      have hnfr : ∀ l ∈ rest, isFence l = false := fun l hl =>
        hnf l (List.mem_cons_of_mem _ hl)
      by_cases hh : isHeading line = true
      · -- heading case
        obtain ⟨ihc, ihh, ihb⟩ := ih (some line) rest (by omega) hnfr
        have hH : isHeading (rstripColon line) = true := rstrip_heading _ hh
        have hNB : isBlank (rstripColon line) = false := rstrip_heading_not_blank _ hh
        have hLB : isBlank line = false := heading_not_blank _ hh
        rw [fixLoop_heading f _ _ _ hh]
        have hmid : List.Chain' (fun a b => (isHeading b = true → isBlank a = true) ∧
            (isHeading a = true → isBlank b = true))
            (rstripColon line :: (postBlank rest ++ fixLoop f (some line) rest)) := by
          rw [List.chain'_cons']
          constructor
          · intro y hy
            cases rest with
            | nil =>
              rw [postBlank_nil, List.nil_append, fixLoop_nil] at hy
              simp at hy
            | cons r rest' =>
              by_cases hbr : isBlank r = true
              · rw [postBlank_cons_blank _ _ hbr, List.nil_append] at hy
                rw [ihb r rfl hbr] at hy
                simp only [Option.mem_def, Option.some.injEq] at hy
                subst hy
                exact ⟨fun hhy => absurd hhy (by rw [blank_not_heading _ hbr]; simp),
                  fun _ => hbr⟩
              · simp only [Bool.not_eq_true] at hbr
                rw [postBlank_cons_nonblank _ _ hbr] at hy
                simp only [List.cons_append, List.head?_cons, Option.mem_def,
                  Option.some.injEq] at hy
                subst hy
                exact hb_empty_right _
          · cases rest with
            | nil =>
              rw [postBlank_nil, List.nil_append, fixLoop_nil]
              simp
            | cons r rest' =>
              by_cases hbr : isBlank r = true
              · rw [postBlank_cons_blank _ _ hbr, List.nil_append]
                exact ihc
              · simp only [Bool.not_eq_true] at hbr
                rw [postBlank_cons_nonblank _ _ hbr, List.cons_append, List.nil_append,
                  List.chain'_cons']
                exact ⟨fun y _ => hb_empty_left _, ihc⟩
        refine ⟨?_, ?_, ?_⟩
        · by_cases hp : prevNonBlank prev = true
          · rw [if_pos hp, List.cons_append, List.nil_append, List.chain'_cons']
            exact ⟨fun y hy => by
              simp only [List.head?_cons, Option.mem_def, Option.some.injEq] at hy
              subst hy
              exact hb_empty_left _, hmid⟩
          · rw [if_neg hp, List.nil_append]
            exact hmid
        · intro h0 hh0 hhead
          by_cases hp : prevNonBlank prev = true
          · rw [if_pos hp] at hh0
            simp only [List.cons_append, List.nil_append, List.head?_cons,
              Option.some.injEq] at hh0
            rw [← hh0] at hhead
            exact absurd hhead (by decide)
          · simpa using hp
        · intro x hx hbx
          simp only [List.head?_cons, Option.some.injEq] at hx
          rw [← hx] at hbx
          rw [hbx] at hLB
          exact Bool.noConfusion hLB
      · simp only [Bool.not_eq_true] at hh
        have hf : isFence line = false := hnf line (List.mem_cons_self _ _)
        by_cases hl : isListItem line = true
        · -- list case
          have hbL : isBlank line = false := listItem_not_blank _ hl
          have hafter : ∀ l ∈ rest.dropWhile (fun l => isListItem l || isCont l),
              isFence l = false := fun l hl2 => hnfr l (mem_of_mem_dropWhile _ _ _ hl2)
          have hlen : (rest.dropWhile (fun l => isListItem l || isCont l)).length
              ≤ rest.length := dropWhile_length_le _ rest
          obtain ⟨ihc, ihh, ihb⟩ := ih
            (some ((rest.takeWhile (fun l => isListItem l || isCont l)).getLast?.getD line))
            (rest.dropWhile (fun l => isListItem l || isCont l)) (by omega) hafter
          have hnoheadseg : ∀ x ∈ line :: rest.takeWhile (fun l => isListItem l || isCont l),
              isHeading x = false := by
            intro x hx
            rcases List.mem_cons.mp hx with rfl | hx2
            · exact listItem_not_heading _ hl
            · have := all_mem_takeWhile _ _ _ hx2
              rcases Bool.or_eq_true .. ▸ this with h1 | h1
              · exact listItem_not_heading _ h1
              · exact cont_not_heading _ h1
          have hlastmem : (line :: rest.takeWhile (fun l => isListItem l || isCont l)).getLast?
              = some ((rest.takeWhile (fun l => isListItem l || isCont l)).getLast?.getD line) :=
            getLast?_cons_getD _ _
          have hlastnothead : isHeading
              ((rest.takeWhile (fun l => isListItem l || isCont l)).getLast?.getD line)
              = false :=
            hnoheadseg _ (getLast?_mem_my _ _ hlastmem)
          rw [fixLoop_list f _ _ _ hh hf hl]
          have htailchain : List.Chain' (fun a b => (isHeading b = true → isBlank a = true) ∧
              (isHeading a = true → isBlank b = true))
              (postBlank (rest.dropWhile (fun l => isListItem l || isCont l)) ++
                fixLoop f
                  (some ((rest.takeWhile (fun l => isListItem l || isCont l)).getLast?.getD line))
                  (rest.dropWhile (fun l => isListItem l || isCont l))) := by
            cases hda : rest.dropWhile (fun l => isListItem l || isCont l) with
            | nil =>
              rw [postBlank_nil, List.nil_append, fixLoop_nil]
              simp
            | cons a after' =>
              rw [hda] at ihc
              by_cases hba : isBlank a = true
              · rw [postBlank_cons_blank _ _ hba, List.nil_append]
                exact ihc
              · simp only [Bool.not_eq_true] at hba
                rw [postBlank_cons_nonblank _ _ hba, List.cons_append, List.nil_append,
                  List.chain'_cons']
                exact ⟨fun y _ => hb_empty_left _, ihc⟩
          have hjoin : ∀ y ∈ (postBlank (rest.dropWhile (fun l => isListItem l || isCont l)) ++
                fixLoop f
                  (some ((rest.takeWhile (fun l => isListItem l || isCont l)).getLast?.getD line))
                  (rest.dropWhile (fun l => isListItem l || isCont l))).head?,
              (isHeading y = true →
                isBlank ((rest.takeWhile (fun l => isListItem l || isCont l)).getLast?.getD line)
                  = true) ∧
              (isHeading ((rest.takeWhile (fun l => isListItem l || isCont l)).getLast?.getD line)
                  = true → isBlank y = true) := by
            intro y hy
            refine ⟨fun hhy => ?_, fun hhx => absurd hhx (by rw [hlastnothead]; simp)⟩
            exfalso
            cases hda : rest.dropWhile (fun l => isListItem l || isCont l) with
            | nil =>
              rw [hda, postBlank_nil, List.nil_append, fixLoop_nil] at hy
              simp at hy
            | cons a after' =>
              by_cases hba : isBlank a = true
              · rw [hda, postBlank_cons_blank _ _ hba, List.nil_append] at hy
                rw [hda] at ihb
                rw [ihb a rfl hba] at hy
                simp only [Option.mem_def, Option.some.injEq] at hy
                subst hy
                rw [blank_not_heading _ hba] at hhy
                exact Bool.noConfusion hhy
              · simp only [Bool.not_eq_true] at hba
                rw [hda, postBlank_cons_nonblank _ _ hba, List.cons_append,
                  List.head?_cons] at hy
                simp only [Option.mem_def, Option.some.injEq] at hy
                subst hy
                exact absurd hhy (by decide)
          have hinner : List.Chain' (fun a b => (isHeading b = true → isBlank a = true) ∧
              (isHeading a = true → isBlank b = true))
              (line :: (rest.takeWhile (fun l => isListItem l || isCont l) ++
                (postBlank (rest.dropWhile (fun l => isListItem l || isCont l)) ++
                  fixLoop f
                    (some ((rest.takeWhile (fun l =>
                      isListItem l || isCont l)).getLast?.getD line))
                    (rest.dropWhile (fun l => isListItem l || isCont l))))) := by
            rw [show line :: (rest.takeWhile (fun l => isListItem l || isCont l) ++
                (postBlank (rest.dropWhile (fun l => isListItem l || isCont l)) ++
                  fixLoop f
                    (some ((rest.takeWhile (fun l =>
                      isListItem l || isCont l)).getLast?.getD line))
                    (rest.dropWhile (fun l => isListItem l || isCont l))))
                = (line :: rest.takeWhile (fun l => isListItem l || isCont l)) ++
                  (postBlank (rest.dropWhile (fun l => isListItem l || isCont l)) ++
                    fixLoop f
                      (some ((rest.takeWhile (fun l =>
                        isListItem l || isCont l)).getLast?.getD line))
                      (rest.dropWhile (fun l => isListItem l || isCont l)))
              from by rw [List.cons_append]]
            refine List.chain'_append.mpr ⟨chain'_of_no_heading _ hnoheadseg, htailchain, ?_⟩
            intro x hx y hy
            rw [hlastmem] at hx
            simp only [Option.mem_def, Option.some.injEq] at hx
            subst hx
            exact hjoin y hy
          refine ⟨?_, ?_, ?_⟩
          · rcases listPre_elems prev with hLP | hLP <;> rw [hLP]
            · rw [List.nil_append]
              exact hinner
            · rw [List.cons_append, List.nil_append, List.chain'_cons']
              refine ⟨fun y hy => ?_, hinner⟩
              simp only [List.head?_cons, Option.mem_def, Option.some.injEq] at hy
              subst hy
              exact hb_empty_left _
          · intro h0 hh0 hhead
            exfalso
            rcases listPre_elems prev with hLP | hLP <;> rw [hLP] at hh0
            · rw [List.nil_append, List.head?_cons] at hh0
              simp only [Option.some.injEq] at hh0
              rw [← hh0] at hhead
              rw [listItem_not_heading _ hl] at hhead
              exact Bool.noConfusion hhead
            · rw [List.cons_append, List.nil_append, List.head?_cons] at hh0
              simp only [Option.some.injEq] at hh0
              rw [← hh0] at hhead
              exact absurd hhead (by decide)
          · intro x hx hbx
            exfalso
            simp only [List.head?_cons, Option.some.injEq] at hx
            rw [← hx] at hbx
            rw [hbx] at hbL
            exact Bool.noConfusion hbL
        · -- plain case
          simp only [Bool.not_eq_true] at hl
          obtain ⟨ihc, ihh, ihb⟩ := ih (some line) rest (by omega) hnfr
          rw [fixLoop_plain f _ _ _ hh hf hl]
          refine ⟨?_, ?_, ?_⟩
          · rw [List.chain'_cons']
            refine ⟨fun y hy => ⟨fun hhy => ?_, fun hhx => absurd hhx (by rw [hh]; simp)⟩, ihc⟩
            have := ihh y hy hhy
            simp only [prevNonBlank, Bool.not_eq_false'] at this
            exact this
          · intro h0 hh0 hhead
            exfalso
            simp only [List.head?_cons, Option.some.injEq] at hh0
            rw [← hh0] at hhead
            rw [hh] at hhead
            exact Bool.noConfusion hhead
          · intro x hx hbx
            simp only [List.head?_cons, Option.some.injEq] at hx
            rw [← hx]
            rfl

theorem collapse_chain_hb (L : List Line)
    (hc : List.Chain' (fun a b => (isHeading b = true → isBlank a = true) ∧
      (isHeading a = true → isBlank b = true)) L) (b : Bool) :
    List.Chain' (fun a b => (isHeading b = true → isBlank a = true) ∧
      (isHeading a = true → isBlank b = true)) (collapseBlanks b L) := by
  induction L generalizing b with
  | nil => simp [collapseBlanks]
  | cons x rest ih =>
    rw [List.chain'_cons'] at hc
    obtain ⟨hhead, htail⟩ := hc
    rw [collapse_cons]
    by_cases hxb : (isBlank x && b) = true
    · rw [if_pos hxb, List.nil_append]
      exact ih htail _
    · rw [if_neg hxb, List.singleton_append, List.chain'_cons']
      refine ⟨fun y hy => ?_, ih htail _⟩
      by_cases hbx : isBlank x = true
      · rw [hbx] at hy
        have hyn : isBlank y = false := collapse_head_nonblank _ _ hy
        exact ⟨fun _ => hbx, fun hhx => absurd hhx (by rw [blank_not_heading _ hbx]; simp)⟩
      · simp only [Bool.not_eq_true] at hbx
        rw [hbx, collapse_false_head] at hy
        exact hhead y hy

/-- C3 (amended): in a document containing no code-fence delimiter lines,
every heading line of the output has a blank line as its immediate
neighbour on each side on which a neighbour exists, and no two adjacent
output lines are both blank — hence every heading not on the output
boundary has exactly one blank line immediately before it and exactly one
immediately after it.  The no-fence restriction is forced: a heading line
inside a fenced code block is copied verbatim with non-blank neighbours
(see the counterexample). -/
theorem heading_isolation_no_fences (content : List Char)
    (hnf : ∀ l ∈ splitLines content, isFence l = false) :
    List.Chain' (fun a b => (isHeading b = true → isBlank a = true) ∧
        (isHeading a = true → isBlank b = true) ∧
        ¬(isBlank a = true ∧ isBlank b = true))
      (splitLines (fix_markdown_formatting content)) := by
  rw [splitLines_fix]
  have h1 := (fixLoop_chain_hb (splitLines content).length none (splitLines content)
    (le_refl _) hnf).1
  have h2 := collapse_chain_hb _ h1 false
  have h3 := collapse_chain_nb false
    (fixLoop (splitLines content).length none (splitLines content))
  have h4 := chain'_and _ _ _ h2 h3
  refine List.Chain'.imp ?_ h4
  rintro a b ⟨⟨hab1, hab2⟩, hab3⟩
  exact ⟨hab1, hab2, hab3⟩

/-- Witness for `heading_isolation_no_fences`: the fence-free document
`"a\n# H\nb"`. -/
theorem heading_isolation_no_fences_witness :
    (∀ l ∈ splitLines "a\n# H\nb".data, isFence l = false) ∧
      List.Chain' (fun a b => (isHeading b = true → isBlank a = true) ∧
          (isHeading a = true → isBlank b = true) ∧
          ¬(isBlank a = true ∧ isBlank b = true))
        (splitLines (fix_markdown_formatting "a\n# H\nb".data)) :=
  ⟨by decide, heading_isolation_no_fences _ (by decide)⟩

/-- C3 (counterexample): in `"a\n```\n# H\nb\n```"` the line `"# H"` is a
heading, is neither the first nor the last line of the document, and is
not already isolated (both input neighbours are non-blank) — yet in the
output it has the non-blank line ``"```"`` immediately before it and the
non-blank line `"b"` immediately after it, because it sits inside a
fenced code block: no blank line is placed around it. -/
theorem heading_isolation_counterexample :
    (splitLines "a\n```\n# H\nb\n```".data
        = ["a".data, "```".data, "# H".data, "b".data, "```".data]) ∧
      isHeading "# H".data = true ∧
      isBlank "```".data = false ∧ isBlank "b".data = false ∧
      splitLines (fix_markdown_formatting "a\n```\n# H\nb\n```".data)
        = ["a".data, [], "```".data, "# H".data, "b".data, "```".data] := by
  decide

/-! ## Idempotence machinery (claim C1): the fixpoint predicate -/

theorem Formatted_zero (prev : Option Line) (doc : List Line) :
    Formatted 0 prev doc = true := by
  cases doc <;> rfl

theorem Formatted_nil (g : Nat) (prev : Option Line) : Formatted g prev [] = true := by
  cases g <;> rfl

theorem Formatted_step_heading (g : Nat) (prev : Option Line) (line : Line)
    (rest : List Line) (hh : isHeading line = true) :
    Formatted (g + 1) prev (line :: rest)
      = (!prevNonBlank prev && !endsColon line && (postBlank rest == []) &&
          Formatted g (some line) rest) := by
  simp only [Formatted, hh, if_true]

theorem Formatted_step_fence_unterm (g : Nat) (prev : Option Line) (line : Line)
    (rest : List Line) (hh : isHeading line = false) (hf : isFence line = true)
    (hd : rest.dropWhile (fun l => !isClosingFence l) = []) :
    Formatted (g + 1) prev (line :: rest) = (!prevNonBlank prev && true) := by
  simp only [Formatted, hh, hf, hd, Bool.false_eq_true, if_false, if_true]

theorem Formatted_step_fence_close (g : Nat) (prev : Option Line) (line : Line)
    (rest : List Line) (close : Line) (rest2 : List Line)
    (hh : isHeading line = false) (hf : isFence line = true)
    (hd : rest.dropWhile (fun l => !isClosingFence l) = close :: rest2) :
    Formatted (g + 1) prev (line :: rest)
      = (!prevNonBlank prev &&
          ((postBlank rest2 == []) && Formatted g (some close) rest2)) := by
  simp only [Formatted, hh, hf, hd, Bool.false_eq_true, if_false, if_true]

theorem Formatted_step_list (g : Nat) (prev : Option Line) (line : Line)
    (rest : List Line) (hh : isHeading line = false) (hf : isFence line = false)
    (hl : isListItem line = true) :
    Formatted (g + 1) prev (line :: rest)
      = ((listPre prev == []) &&
          ((postBlank (rest.dropWhile (fun l => isListItem l || isCont l)) == []) &&
            Formatted g
              (some ((rest.takeWhile (fun l => isListItem l || isCont l)).getLast?.getD line))
              (rest.dropWhile (fun l => isListItem l || isCont l)))) := by
  simp only [Formatted, hh, hf, hl, Bool.false_eq_true, if_false, if_true]

theorem Formatted_step_plain (g : Nat) (prev : Option Line) (line : Line)
    (rest : List Line) (hh : isHeading line = false) (hf : isFence line = false)
    (hl : isListItem line = false) :
    Formatted (g + 1) prev (line :: rest) = Formatted g (some line) rest := by
  simp only [Formatted, hh, hf, hl, Bool.false_eq_true, if_false]

theorem formattedAll_nil (prev : Option Line) : FormattedAll prev [] :=
  fun g => Formatted_nil g prev

theorem formattedAll_plain (prev : Option Line) (line : Line) (rest : List Line)
    (hh : isHeading line = false) (hf : isFence line = false)
    (hl : isListItem line = false) (h : FormattedAll (some line) rest) :
    FormattedAll prev (line :: rest) := by
  intro g
  cases g with
  | zero => rfl
  | succ g =>
    rw [Formatted_step_plain g _ _ _ hh hf hl]
    exact h g

theorem formattedAll_plain_inv (prev : Option Line) (line : Line) (rest : List Line)
    (hh : isHeading line = false) (hf : isFence line = false)
    (hl : isListItem line = false) (h : FormattedAll prev (line :: rest)) :
    FormattedAll (some line) rest := by
  intro g
  have := h (g + 1)
  rw [Formatted_step_plain g _ _ _ hh hf hl] at this
  exact this

theorem formattedAll_heading (prev : Option Line) (line : Line) (rest : List Line)
    (hh : isHeading line = true) (h1 : prevNonBlank prev = false)
    (h2 : endsColon line = false) (h3 : postBlank rest = [])
    (h : FormattedAll (some line) rest) : FormattedAll prev (line :: rest) := by
  intro g
  cases g with
  | zero => rfl
  | succ g =>
    rw [Formatted_step_heading g _ _ _ hh, h1, h2, h3]
    simp only [Bool.not_false, Bool.and_true, Bool.true_and, beq_self_eq_true]
    exact h g

theorem formattedAll_heading_inv (prev : Option Line) (line : Line) (rest : List Line)
    (hh : isHeading line = true) (h : FormattedAll prev (line :: rest)) :
    prevNonBlank prev = false ∧ endsColon line = false ∧ postBlank rest = [] ∧
      FormattedAll (some line) rest := by
  have h1 := h 1
  rw [Formatted_step_heading 0 _ _ _ hh] at h1
  simp only [Bool.and_eq_true, Bool.not_eq_true', beq_iff_eq] at h1
  refine ⟨h1.1.1.1, h1.1.1.2, h1.1.2, fun g => ?_⟩
  have h2 := h (g + 1)
  rw [Formatted_step_heading g _ _ _ hh] at h2
  simp only [Bool.and_eq_true] at h2
  exact h2.2

theorem formattedAll_fence_unterm (prev : Option Line) (line : Line) (rest : List Line)
    (hh : isHeading line = false) (hf : isFence line = true)
    (hd : rest.dropWhile (fun l => !isClosingFence l) = [])
    (h1 : prevNonBlank prev = false) : FormattedAll prev (line :: rest) := by
  intro g
  cases g with
  | zero => rfl
  | succ g =>
    rw [Formatted_step_fence_unterm g _ _ _ hh hf hd, h1]
    rfl

theorem formattedAll_fence_close (prev : Option Line) (line : Line) (rest : List Line)
    (close : Line) (rest2 : List Line) (hh : isHeading line = false)
    (hf : isFence line = true)
    (hd : rest.dropWhile (fun l => !isClosingFence l) = close :: rest2)
    (h1 : prevNonBlank prev = false) (h3 : postBlank rest2 = [])
    (h : FormattedAll (some close) rest2) : FormattedAll prev (line :: rest) := by
  intro g
  cases g with
  | zero => rfl
  | succ g =>
    rw [Formatted_step_fence_close g _ _ _ _ _ hh hf hd, h1, h3]
    simp only [Bool.not_false, Bool.true_and, beq_self_eq_true]
    exact h g

theorem formattedAll_fence_unterm_inv (prev : Option Line) (line : Line)
    (rest : List Line) (hh : isHeading line = false) (hf : isFence line = true)
    (hd : rest.dropWhile (fun l => !isClosingFence l) = [])
    (h : FormattedAll prev (line :: rest)) : prevNonBlank prev = false := by
  have h1 := h 1
  rw [Formatted_step_fence_unterm 0 _ _ _ hh hf hd] at h1
  simp only [Bool.and_true, Bool.not_eq_true'] at h1
  exact h1

theorem formattedAll_fence_close_inv (prev : Option Line) (line : Line)
    (rest : List Line) (close : Line) (rest2 : List Line)
    (hh : isHeading line = false) (hf : isFence line = true)
    (hd : rest.dropWhile (fun l => !isClosingFence l) = close :: rest2)
    (h : FormattedAll prev (line :: rest)) :
    prevNonBlank prev = false ∧ postBlank rest2 = [] ∧ FormattedAll (some close) rest2 := by
  have h1 := h 1
  rw [Formatted_step_fence_close 0 _ _ _ _ _ hh hf hd] at h1
  simp only [Bool.and_eq_true, Bool.not_eq_true', beq_iff_eq] at h1
  refine ⟨h1.1, h1.2.1, fun g => ?_⟩
  have h2 := h (g + 1)
  rw [Formatted_step_fence_close g _ _ _ _ _ hh hf hd] at h2
  simp only [Bool.and_eq_true] at h2
  exact h2.2.2

theorem formattedAll_list (prev : Option Line) (line : Line) (rest : List Line)
    (hh : isHeading line = false) (hf : isFence line = false)
    (hl : isListItem line = true) (h1 : listPre prev = [])
    (h3 : postBlank (rest.dropWhile (fun l => isListItem l || isCont l)) = [])
    (h : FormattedAll
      (some ((rest.takeWhile (fun l => isListItem l || isCont l)).getLast?.getD line))
      (rest.dropWhile (fun l => isListItem l || isCont l))) :
    FormattedAll prev (line :: rest) := by
  intro g
  cases g with
  | zero => rfl
  | succ g =>
    rw [Formatted_step_list g _ _ _ hh hf hl, h1, h3]
    simp only [beq_self_eq_true, Bool.true_and]
    exact h g

theorem formattedAll_list_inv (prev : Option Line) (line : Line) (rest : List Line)
    (hh : isHeading line = false) (hf : isFence line = false)
    (hl : isListItem line = true) (h : FormattedAll prev (line :: rest)) :
    listPre prev = [] ∧
      postBlank (rest.dropWhile (fun l => isListItem l || isCont l)) = [] ∧
      FormattedAll
        (some ((rest.takeWhile (fun l => isListItem l || isCont l)).getLast?.getD line))
        (rest.dropWhile (fun l => isListItem l || isCont l)) := by
  have h1 := h 1
  rw [Formatted_step_list 0 _ _ _ hh hf hl] at h1
  simp only [Bool.and_eq_true, beq_iff_eq] at h1
  refine ⟨h1.1, h1.2.1, fun g => ?_⟩
  have h2 := h (g + 1)
  rw [Formatted_step_list g _ _ _ hh hf hl] at h2
  simp only [Bool.and_eq_true] at h2
  exact h2.2.2

/-! ## A formatted document is a fixpoint of pass one -/

theorem rstrip_id_of_no_colon (l : Line) (h : endsColon l = false) :
    rstripColon l = l := by
  unfold rstripColon
  rw [if_neg (by rw [h]; simp)]

theorem fixLoop_of_formatted (fuel : Nat) : ∀ (prev : Option Line) (L : List Line),
    FormattedAll prev L → L.length ≤ fuel → fixLoop fuel prev L = L := by
  induction fuel with
  | zero =>
    intro prev L _ h
    rw [List.eq_nil_of_length_eq_zero (Nat.le_zero.mp h), fixLoop_nil]
  | succ f ih =>
    intro prev L hF h
    cases L with
    | nil => exact fixLoop_nil _ _
    | cons line rest =>
      simp only [List.length_cons] at h
      by_cases hh : isHeading line = true
      · obtain ⟨h1, h2, h3, htail⟩ := formattedAll_heading_inv _ _ _ hh hF
        rw [fixLoop_heading f _ _ _ hh, h1, h3, rstrip_id_of_no_colon _ h2,
          if_neg (by simp), List.nil_append, List.nil_append,
          ih (some line) rest htail (by omega)]
      · simp only [Bool.not_eq_true] at hh
        by_cases hf : isFence line = true
        · cases hd : rest.dropWhile (fun l => !isClosingFence l) with
          | nil =>
            have h1 := formattedAll_fence_unterm_inv _ _ _ hh hf hd hF
            rw [fixLoop_fence_unterm f _ _ _ hh hf hd, h1, if_neg (by simp),
              List.nil_append]
          | cons close rest2 =>
            obtain ⟨h1, h3, htail⟩ := formattedAll_fence_close_inv _ _ _ _ _ hh hf hd hF
            have hlen : rest2.length + 1 ≤ rest.length := by
              have := dropWhile_length_le (fun l => !isClosingFence l) rest
              rw [hd] at this
              simpa using this
            rw [fixLoop_fence_close f _ _ _ _ _ hh hf hd, h1, h3,
              if_neg (by simp), List.nil_append, List.nil_append,
              ih (some close) rest2 htail (by omega)]
            rw [show rest.takeWhile (fun l => !isClosingFence l) ++ close :: rest2
                = rest from by rw [← hd, List.takeWhile_append_dropWhile]]
        · simp only [Bool.not_eq_true] at hf
          by_cases hl : isListItem line = true
          · obtain ⟨h1, h3, htail⟩ := formattedAll_list_inv _ _ _ hh hf hl hF
            have hlen : (rest.dropWhile (fun l => isListItem l || isCont l)).length
                ≤ rest.length := dropWhile_length_le _ rest
            rw [fixLoop_list f _ _ _ hh hf hl, h1, h3, List.nil_append,
              List.nil_append, ih _ _ htail (by omega),
              List.takeWhile_append_dropWhile]
          · simp only [Bool.not_eq_true] at hl
            have htail := formattedAll_plain_inv _ _ _ hh hf hl hF
            rw [fixLoop_plain f _ _ _ hh hf hl, ih (some line) rest htail (by omega)]

/-! ## Support lemmas for the idempotence invariant -/

theorem fence_not_listItem (l : Line) (h : isFence l = true) : isListItem l = false := by
  obtain ⟨t, rfl⟩ := isFence_head l h
  exact not_listItem_of_head _ _ (by decide)

theorem postBlank_of_head_blank (L : List Line) (r : Line) (hL : L.head? = some r)
    (hbr : isBlank r = true) : postBlank L = [] := by
  cases L with
  | nil => simp at hL
  | cons a t =>
    simp only [List.head?_cons, Option.some.injEq] at hL
    subst hL
    exact postBlank_cons_blank _ _ hbr

theorem fixLoop_blank_head (fuel : Nat) (p : Option Line) (r : Line) (rest' : List Line)
    (hbr : isBlank r = true) (hlen : rest'.length + 1 ≤ fuel) :
    (fixLoop fuel p (r :: rest')).head? = some r := by
  cases fuel with
  | zero => omega
  | succ f =>
    rw [fixLoop_plain f _ _ _ (blank_not_heading _ hbr) (blank_not_fence _ hbr)
      (blank_not_listItem _ hbr)]
    rfl

theorem collapse_nonblank_append (X : List Line) (h : ∀ x ∈ X, isBlank x = false) :
    ∀ W, collapseBlanks false (X ++ W) = X ++ collapseBlanks false W := by
  induction X with
  | nil => intro W; rfl
  | cons x X ih =>
    intro W
    rw [List.cons_append, collapse_cons_nonblank _ _ _ (h x (List.mem_cons_self _ _)),
      ih (fun y hy => h y (List.mem_cons_of_mem _ hy)) W, List.cons_append]

theorem listPre_of_prev_blank (q : Option Line) (h : prevNonBlank q = false) :
    listPre q = [] := by
  cases q with
  | none => rfl
  | some p =>
    simp only [prevNonBlank, Bool.not_eq_false'] at h
    rw [show listPre (some p) = if !isListItem p && !isBlank p then [[]] else [] from rfl,
      h]
    simp

theorem listPre_some_item (p : Line) (h : isListItem p = true) :
    listPre (some p) = [] := by
  rw [show listPre (some p) = if !isListItem p && !isBlank p then [[]] else [] from rfl, h]
  simp

theorem listPre_nil_cases (prev : Option Line) (h : listPre prev = []) :
    prev = none ∨ ∃ p, prev = some p ∧ (isListItem p = true ∨ isBlank p = true) := by
  cases prev with
  | none => exact Or.inl rfl
  | some p =>
    refine Or.inr ⟨p, rfl, ?_⟩
    rw [show listPre (some p) = if !isListItem p && !isBlank p then [[]] else [] from rfl] at h
    by_cases hc : (!isListItem p && !isBlank p) = true
    · rw [if_pos hc] at h
      exact absurd h (by simp)
    · simp only [Bool.and_eq_true, Bool.not_eq_true', not_and_or, Bool.not_eq_false] at hc
      rcases hc with h1 | h1
      · exact Or.inl h1
      · exact Or.inr h1

theorem collapse_pre_seg (b c : Bool) (z : Line) (W : List Line)
    (hz : isBlank z = false) :
    collapseBlanks b ((if c then [[]] else []) ++ z :: W)
      = (if c && !b then [[]] else []) ++ z :: collapseBlanks false W := by
  cases c with
  | false =>
    rw [if_neg (by simp), if_neg (by simp), List.nil_append, List.nil_append,
      collapse_cons_nonblank _ _ _ hz]
  | true =>
    rw [if_pos rfl]
    cases b with
    | true =>
      rw [show (true && !true) = false from rfl, if_neg (by simp), List.nil_append,
        show [([] : Line)] ++ z :: W = ([] : Line) :: z :: W from rfl,
        collapse_true_cons_blank _ _ isBlank_nil, collapse_cons_nonblank _ _ _ hz]
    | false =>
      rw [show (true && !false) = true from rfl, if_pos rfl,
        show [([] : Line)] ++ z :: W = ([] : Line) :: z :: W from rfl,
        collapse_false_cons_blank _ _ isBlank_nil, collapse_cons_nonblank _ _ _ hz]
      rfl

theorem formattedAll_pre (d : Bool) (q : Option Line) (z : Line) (T : List Line)
    (hq : d = false → prevNonBlank q = false)
    (h : ∀ q', prevNonBlank q' = false → FormattedAll q' (z :: T)) :
    FormattedAll q ((if d then [[]] else []) ++ z :: T) := by
  cases d with
  | false =>
    rw [if_neg (by simp), List.nil_append]
    exact h q (hq rfl)
  | true =>
    rw [if_pos rfl, show [([] : Line)] ++ z :: T = ([] : Line) :: z :: T from rfl]
    exact formattedAll_plain _ _ _ (by decide) (by decide) (by decide)
      (h (some []) (by decide))

theorem formattedAll_pre_list (d : Bool) (q : Option Line) (z : Line) (T : List Line)
    (hq : d = false → listPre q = [])
    (h : ∀ q', listPre q' = [] → FormattedAll q' (z :: T)) :
    FormattedAll q ((if d then [[]] else []) ++ z :: T) := by
  cases d with
  | false =>
    rw [if_neg (by simp), List.nil_append]
    exact h q (hq rfl)
  | true =>
    rw [if_pos rfl, show [([] : Line)] ++ z :: T = ([] : Line) :: z :: T from rfl]
    exact formattedAll_plain _ _ _ (by decide) (by decide) (by decide)
      (h (some []) (by decide))

theorem heading_not_listItem (l : Line) (h : isHeading l = true) :
    isListItem l = false := by
  obtain ⟨t, rfl⟩ := isHeading_head l h
  exact not_listItem_of_head _ _ (by decide)

theorem loopInv_start : LoopInv none false none :=
  ⟨fun _ => ⟨rfl, rfl⟩, fun p hp => absurd hp (by simp),
    fun _ => rfl, fun p hp => absurd hp (by simp)⟩

theorem loopInv_after_blankpre (p : Line) : LoopInv (some p) true (some ([] : Line)) :=
  ⟨fun hx => absurd hx (by simp), fun _ _ _ => rfl, fun _ => by decide,
    fun _ _ _ => Or.inr (by decide)⟩

theorem loopInv_self (z : Line) : LoopInv (some z) (isBlank z) (some z) :=
  ⟨fun hx => absurd hx (by simp),
   fun p hp hbp => by
     injection hp with h2
     rw [← h2] at hbp
     exact hbp,
   fun hb => by simp [prevNonBlank, hb],
   fun p hp hip => Or.inl ⟨hp, by
     injection hp with h2
     rw [← h2] at hip
     exact listItem_not_blank _ hip⟩⟩

theorem loopInv_heading_prev (line : Line) (hh : isHeading line = true)
    (q : Option Line) : LoopInv (some line) false q :=
  ⟨fun hx => absurd hx (by simp),
   fun p hp hbp => by
     injection hp with h2
     rw [← h2, heading_not_blank _ hh] at hbp
     exact Bool.noConfusion hbp,
   fun hx => absurd hx (by simp),
   fun p hp hip => by
     injection hp with h2
     rw [← h2, heading_not_listItem _ hh] at hip
     exact absurd hip (by simp)⟩

theorem loopInv_blank_prev (line : Line) (q : Option Line)
    (hq : prevNonBlank q = false) : LoopInv (some line) true q :=
  ⟨fun hx => absurd hx (by simp), fun _ _ _ => rfl, fun _ => hq,
    fun _ _ _ => Or.inr hq⟩

/-- Main invariant for idempotence: in the absence of headings ending in
`::` and of blank continuation lines, the collapsed output of pass one is
a formatted document (pass one acts on it as the identity), for every
collapse entry state `b` and previous collapsed line `q` compatible with
the loop state `prev`. -/
theorem collapsed_output_formatted (f : Nat) : ∀ (prev : Option Line) (S : List Line)
    (b : Bool) (q : Option Line),
    S.length ≤ f →
    (∀ l ∈ S, isHeading l = true → endsColonColon l = false) →
    (∀ l ∈ S, isBlank l = true → isCont l = false) →
    LoopInv prev b q →
    FormattedAll q (collapseBlanks b (fixLoop f prev S)) := by
  induction f with
  | zero =>
    intro prev S b q h _ _ _
    rw [List.eq_nil_of_length_eq_zero (Nat.le_zero.mp h), fixLoop_nil, collapse_nil]
    exact formattedAll_nil q
  | succ f ih =>
    intro prev S b q h hcc hbc hInv
    obtain ⟨inv1, inv2, inv3, inv4⟩ := hInv
    cases S with
    | nil =>
      rw [fixLoop_nil, collapse_nil]
      exact formattedAll_nil q
    | cons line rest =>
      simp only [List.length_cons] at h
      have hccr : ∀ l ∈ rest, isHeading l = true → endsColonColon l = false :=
        fun l hl => hcc l (List.mem_cons_of_mem _ hl)
      have hbcr : ∀ l ∈ rest, isBlank l = true → isCont l = false :=
        fun l hl => hbc l (List.mem_cons_of_mem _ hl)
      have hpq : (prevNonBlank prev && !b) = false → prevNonBlank q = false := by
        intro hd0
        by_cases hb2 : b = true
        · exact inv3 hb2
        · simp only [Bool.not_eq_true] at hb2
          rw [hb2] at hd0
          simp only [Bool.not_false, Bool.and_true] at hd0
          cases prev with
          | none =>
            obtain ⟨-, hq⟩ := inv1 rfl
            rw [hq]
            rfl
          | some p =>
            simp only [prevNonBlank, Bool.not_eq_false'] at hd0
            have hcon := inv2 p rfl hd0
            rw [hb2] at hcon
            exact Bool.noConfusion hcon
      by_cases hh : isHeading line = true
      · -- heading case
        have hccl : endsColonColon line = false := hcc line (List.mem_cons_self _ _) hh
        have hH : isHeading (rstripColon line) = true := rstrip_heading _ hh
        have hNB : isBlank (rstripColon line) = false := rstrip_heading_not_blank _ hh
        have hNC : endsColon (rstripColon line) = false := rstrip_no_colon _ hccl
        rw [fixLoop_heading f _ _ _ hh, collapse_pre_seg b (prevNonBlank prev) _ _ hNB]
        refine formattedAll_pre _ _ _ _ hpq ?_
        intro q' hq'
        cases rest with
        | nil =>
          rw [postBlank_nil, List.nil_append, fixLoop_nil, collapse_nil]
          exact formattedAll_heading _ _ _ hH hq' hNC postBlank_nil (formattedAll_nil _)
        | cons r rest' =>
          simp only [List.length_cons] at h
          by_cases hbr : isBlank r = true
          · rw [postBlank_cons_blank _ _ hbr, List.nil_append]
            refine formattedAll_heading _ _ _ hH hq' hNC ?_ ?_
            · exact postBlank_of_head_blank _ r
                (by rw [collapse_false_head]; exact fixLoop_blank_head f _ _ _ hbr (by omega))
                hbr
            · exact ih (some line) (r :: rest') false (some (rstripColon line))
                (by simp only [List.length_cons]; omega) hccr hbcr
                (loopInv_heading_prev line hh _)
          · simp only [Bool.not_eq_true] at hbr
            rw [postBlank_cons_nonblank _ _ hbr,
              show [([] : Line)] ++ fixLoop f (some line) (r :: rest')
                = ([] : Line) :: fixLoop f (some line) (r :: rest') from rfl,
              collapse_false_cons_blank _ _ isBlank_nil]
            refine formattedAll_heading _ _ _ hH hq' hNC
              (postBlank_cons_blank _ _ isBlank_nil) ?_
            refine formattedAll_plain _ _ _ (by decide) (by decide) (by decide) ?_
            exact ih (some line) (r :: rest') true (some [])
              (by simp only [List.length_cons]; omega) hccr hbcr
              (loopInv_after_blankpre line)
      · simp only [Bool.not_eq_true] at hh
        by_cases hf : isFence line = true
        · -- fence case
          have hFnb : isBlank line = false := fence_not_blank _ hf
          cases hd : rest.dropWhile (fun l => !isClosingFence l) with
          | nil =>
            rw [fixLoop_fence_unterm f _ _ _ hh hf hd, collapse_pre_seg b _ _ _ hFnb]
            refine formattedAll_pre _ _ _ _ hpq ?_
            intro q' hq'
            refine formattedAll_fence_unterm _ _ _ hh hf ?_ hq'
            rw [List.dropWhile_eq_nil_iff]
            intro x hx
            exact List.dropWhile_eq_nil_iff.mp hd x (collapse_mem _ _ _ hx)
          | cons close rest2 =>
            have hclose : isClosingFence close = true := by
              have := dropWhile_head_not (fun l => !isClosingFence l) rest close rest2 hd
              simpa using this
            have hbC : isBlank close = false := closing_not_blank _ hclose
            have hlen2 : rest2.length + 1 ≤ rest.length := by
              have := dropWhile_length_le (fun l => !isClosingFence l) rest
              rw [hd] at this
              simpa using this
            have hmem2 : ∀ l ∈ rest2, l ∈ rest := fun l hl =>
              mem_of_mem_dropWhile _ _ _ (hd ▸ List.mem_cons_of_mem _ hl)
            have hccr2 : ∀ l ∈ rest2, isHeading l = true → endsColonColon l = false :=
              fun l hl => hccr l (hmem2 l hl)
            have hbcr2 : ∀ l ∈ rest2, isBlank l = true → isCont l = false :=
              fun l hl => hbcr l (hmem2 l hl)
            rw [fixLoop_fence_close f _ _ _ _ _ hh hf hd, collapse_pre_seg b _ _ _ hFnb]
            refine formattedAll_pre _ _ _ _ hpq ?_
            intro q' hq'
            rw [collapse_append false (rest.takeWhile fun l => !isClosingFence l) _,
              collapse_cons_nonblank _ _ _ hbC]
            obtain ⟨hT, hD⟩ := takeWhile_eq_of_all (fun l => !isClosingFence l)
              (collapseBlanks false (rest.takeWhile fun l => !isClosingFence l))
              (fun x hx => all_mem_takeWhile (fun l => !isClosingFence l) rest x
                (collapse_mem _ _ _ hx))
              (close :: collapseBlanks false
                (postBlank rest2 ++ fixLoop f (some close) rest2))
              (fun c2 hc2 => by
                simp only [List.head?_cons, Option.mem_def, Option.some.injEq] at hc2
                subst hc2
                show (!isClosingFence close) = false
                rw [hclose]
                rfl)
            refine formattedAll_fence_close _ _ _ close _ hh hf hD hq' ?_ ?_
            · cases rest2 with
              | nil =>
                rw [postBlank_nil, List.nil_append, fixLoop_nil, collapse_nil]
                exact postBlank_nil
              | cons r rest2' =>
                simp only [List.length_cons] at hlen2
                by_cases hbr : isBlank r = true
                · rw [postBlank_cons_blank _ _ hbr, List.nil_append]
                  exact postBlank_of_head_blank _ r
                    (by rw [collapse_false_head]
                        exact fixLoop_blank_head f _ _ _ hbr (by omega)) hbr
                · simp only [Bool.not_eq_true] at hbr
                  rw [postBlank_cons_nonblank _ _ hbr,
                    show [([] : Line)] ++ fixLoop f (some close) (r :: rest2')
                      = ([] : Line) :: fixLoop f (some close) (r :: rest2') from rfl,
                    collapse_false_cons_blank _ _ isBlank_nil]
                  exact postBlank_cons_blank _ _ isBlank_nil
            · cases rest2 with
              | nil =>
                rw [postBlank_nil, List.nil_append, fixLoop_nil, collapse_nil]
                exact formattedAll_nil _
              | cons r rest2' =>
                simp only [List.length_cons] at hlen2
                by_cases hbr : isBlank r = true
                · rw [postBlank_cons_blank _ _ hbr, List.nil_append]
                  have hInvC : LoopInv (some close) false (some close) := by
                    have := loopInv_self close
                    rw [hbC] at this
                    exact this
                  exact ih (some close) (r :: rest2') false (some close)
                    (by simp only [List.length_cons]; omega) hccr2 hbcr2 hInvC
                · simp only [Bool.not_eq_true] at hbr
                  rw [postBlank_cons_nonblank _ _ hbr,
                    show [([] : Line)] ++ fixLoop f (some close) (r :: rest2')
                      = ([] : Line) :: fixLoop f (some close) (r :: rest2') from rfl,
                    collapse_false_cons_blank _ _ isBlank_nil]
                  refine formattedAll_plain _ _ _ (by decide) (by decide) (by decide) ?_
                  exact ih (some close) (r :: rest2') true (some [])
                    (by simp only [List.length_cons]; omega) hccr2 hbcr2
                    (loopInv_after_blankpre close)
        · simp only [Bool.not_eq_true] at hf
          by_cases hl : isListItem line = true
          · -- list case
            have hbL : isBlank line = false := listItem_not_blank _ hl
            have hbodyNB : ∀ x ∈ rest.takeWhile (fun l => isListItem l || isCont l),
                isBlank x = false := by
              intro x hx
              have hp := all_mem_takeWhile _ _ _ hx
              by_cases hbx : isBlank x = true
              · exfalso
                have hcx := hbc x (List.mem_cons_of_mem _
                  (mem_of_mem_takeWhile _ _ _ hx)) hbx
                rw [blank_not_listItem _ hbx, hcx] at hp
                exact Bool.noConfusion hp
              · simpa using hbx
            have hlastmem : (line :: rest.takeWhile (fun l => isListItem l || isCont l)).getLast?
                = some ((rest.takeWhile (fun l => isListItem l || isCont l)).getLast?.getD line) :=
              getLast?_cons_getD _ _
            have hlastNB : isBlank
                ((rest.takeWhile (fun l => isListItem l || isCont l)).getLast?.getD line)
                = false := by
              have hm := getLast?_mem_my _ _ hlastmem
              rcases List.mem_cons.mp hm with h1 | h1
              · rw [h1]
                exact hbL
              · exact hbodyNB _ h1
            have hmem2 : ∀ l ∈ rest.dropWhile (fun l => isListItem l || isCont l),
                l ∈ rest := fun l hl2 => mem_of_mem_dropWhile _ _ _ hl2
            have hccr2 : ∀ l ∈ rest.dropWhile (fun l => isListItem l || isCont l),
                isHeading l = true → endsColonColon l = false :=
              fun l hl2 => hccr l (hmem2 l hl2)
            have hbcr2 : ∀ l ∈ rest.dropWhile (fun l => isListItem l || isCont l),
                isBlank l = true → isCont l = false :=
              fun l hl2 => hbcr l (hmem2 l hl2)
            have hlenA : (rest.dropWhile (fun l => isListItem l || isCont l)).length
                ≤ rest.length := dropWhile_length_le _ rest
            -- the core: the collapsed list block is formatted, for any
            -- previous collapsed line with empty list-pre
            have hcore : ∀ q', listPre q' = [] →
                FormattedAll q' (line ::
                  (rest.takeWhile (fun l => isListItem l || isCont l) ++
                    collapseBlanks false
                      (postBlank (rest.dropWhile (fun l => isListItem l || isCont l)) ++
                        fixLoop f
                          (some ((rest.takeWhile (fun l =>
                            isListItem l || isCont l)).getLast?.getD line))
                          (rest.dropWhile (fun l => isListItem l || isCont l))))) := by
              intro q' hq'
              have hfailhead : ∀ c2 ∈ (collapseBlanks false
                  (postBlank (rest.dropWhile (fun l => isListItem l || isCont l)) ++
                    fixLoop f
                      (some ((rest.takeWhile (fun l =>
                        isListItem l || isCont l)).getLast?.getD line))
                      (rest.dropWhile (fun l => isListItem l || isCont l)))).head?,
                  (isListItem c2 || isCont c2) = false := by
                intro c2 hc2
                cases hda : rest.dropWhile (fun l => isListItem l || isCont l) with
                | nil =>
                  rw [hda, postBlank_nil, List.nil_append, fixLoop_nil, collapse_nil] at hc2
                  simp at hc2
                | cons a after' =>
                  have hfail : (isListItem a || isCont a) = false :=
                    dropWhile_head_not (fun l => isListItem l || isCont l)
                      rest a after' hda
                  by_cases hba : isBlank a = true
                  · rw [hda, postBlank_cons_blank _ _ hba, List.nil_append,
                      collapse_false_head] at hc2
                    have hlen3 : after'.length + 1 ≤ rest.length := by
                      have h5 := hlenA
                      rw [hda] at h5
                      simp only [List.length_cons] at h5
                      omega
                    rw [fixLoop_blank_head f _ _ _ hba (by omega)] at hc2
                    simp only [Option.mem_def, Option.some.injEq] at hc2
                    subst hc2
                    exact hfail
                  · simp only [Bool.not_eq_true] at hba
                    rw [hda, postBlank_cons_nonblank _ _ hba,
                      show [([] : Line)] ++ fixLoop f _ (a :: after')
                        = ([] : Line) :: fixLoop f _ (a :: after') from rfl,
                      collapse_false_cons_blank _ _ isBlank_nil] at hc2
                    simp only [List.head?_cons, Option.mem_def, Option.some.injEq] at hc2
                    subst hc2
                    rfl
              obtain ⟨hT, hD⟩ := takeWhile_eq_of_all (fun l => isListItem l || isCont l)
                (rest.takeWhile (fun l => isListItem l || isCont l))
                (fun x hx => all_mem_takeWhile (fun l => isListItem l || isCont l) rest x hx)
                (collapseBlanks false
                  (postBlank (rest.dropWhile (fun l => isListItem l || isCont l)) ++
                    fixLoop f
                      (some ((rest.takeWhile (fun l =>
                        isListItem l || isCont l)).getLast?.getD line))
                      (rest.dropWhile (fun l => isListItem l || isCont l))))
                hfailhead
              refine formattedAll_list _ _ _ hh hf hl hq' ?_ ?_
              · -- postBlank of the re-scan remainder
                rw [hD]
                cases hda : rest.dropWhile (fun l => isListItem l || isCont l) with
                | nil =>
                  rw [postBlank_nil, List.nil_append, fixLoop_nil, collapse_nil]
                  exact postBlank_nil
                | cons a after' =>
                  by_cases hba : isBlank a = true
                  · rw [postBlank_cons_blank _ _ hba, List.nil_append]
                    have h5 := hlenA
                    rw [hda] at h5
                    simp only [List.length_cons] at h5
                    exact postBlank_of_head_blank _ a
                      (by rw [collapse_false_head]
                          exact fixLoop_blank_head f _ _ _ hba (by omega)) hba
                  · simp only [Bool.not_eq_true] at hba
                    rw [postBlank_cons_nonblank _ _ hba,
                      show [([] : Line)] ++ fixLoop f _ (a :: after')
                        = ([] : Line) :: fixLoop f _ (a :: after') from rfl,
                      collapse_false_cons_blank _ _ isBlank_nil]
                    exact postBlank_cons_blank _ _ isBlank_nil
              · -- the recursive Formatted obligation
                rw [hT, hD]
                cases hda : rest.dropWhile (fun l => isListItem l || isCont l) with
                | nil =>
                  rw [postBlank_nil, List.nil_append, fixLoop_nil, collapse_nil]
                  exact formattedAll_nil _
                | cons a after' =>
                  have hlen3 : after'.length + 1 ≤ rest.length := by
                    have h5 := hlenA
                    rw [hda] at h5
                    simp only [List.length_cons] at h5
                    omega
                  have hcc3 : ∀ l ∈ a :: after', isHeading l = true →
                      endsColonColon l = false := by
                    rw [← hda]
                    exact hccr2
                  have hbc3 : ∀ l ∈ a :: after', isBlank l = true →
                      isCont l = false := by
                    rw [← hda]
                    exact hbcr2
                  by_cases hba : isBlank a = true
                  · rw [postBlank_cons_blank _ _ hba, List.nil_append]
                    have hInvL : LoopInv
                        (some ((rest.takeWhile (fun l =>
                          isListItem l || isCont l)).getLast?.getD line))
                        false
                        (some ((rest.takeWhile (fun l =>
                          isListItem l || isCont l)).getLast?.getD line)) := by
                      have := loopInv_self
                        ((rest.takeWhile (fun l =>
                          isListItem l || isCont l)).getLast?.getD line)
                      rw [hlastNB] at this
                      exact this
                    exact ih _ (a :: after') false _
                      (by simp only [List.length_cons]; omega) hcc3 hbc3 hInvL
                  · simp only [Bool.not_eq_true] at hba
                    rw [postBlank_cons_nonblank _ _ hba,
                      show [([] : Line)] ++ fixLoop f _ (a :: after')
                        = ([] : Line) :: fixLoop f _ (a :: after') from rfl,
                      collapse_false_cons_blank _ _ isBlank_nil]
                    refine formattedAll_plain _ _ _ (by decide) (by decide) (by decide) ?_
                    exact ih _ (a :: after') true (some [])
                      (by simp only [List.length_cons]; omega) hcc3 hbc3
                      (loopInv_after_blankpre _)
            -- assemble with the list-pre handling
            rw [fixLoop_list f _ _ _ hh hf hl]
            have hinner : collapseBlanks false
                (rest.takeWhile (fun l => isListItem l || isCont l) ++
                  (postBlank (rest.dropWhile (fun l => isListItem l || isCont l)) ++
                    fixLoop f
                      (some ((rest.takeWhile (fun l =>
                        isListItem l || isCont l)).getLast?.getD line))
                      (rest.dropWhile (fun l => isListItem l || isCont l))))
                = rest.takeWhile (fun l => isListItem l || isCont l) ++
                  collapseBlanks false
                    (postBlank (rest.dropWhile (fun l => isListItem l || isCont l)) ++
                      fixLoop f
                        (some ((rest.takeWhile (fun l =>
                          isListItem l || isCont l)).getLast?.getD line))
                        (rest.dropWhile (fun l => isListItem l || isCont l))) :=
              collapse_nonblank_append _ hbodyNB _
            rcases listPre_elems prev with hLP | hLP <;> rw [hLP]
            · -- no blank inserted before the list
              rw [List.nil_append, collapse_cons_nonblank _ _ _ hbL, hinner]
              have hq0 : listPre q = [] := by
                rcases listPre_nil_cases prev hLP with hc1 | ⟨p, hp, hc1⟩
                · obtain ⟨-, hqn⟩ := inv1 hc1
                  rw [hqn]
                  rfl
                · rcases hc1 with hitem | hblank
                  · rcases inv4 p hp hitem with ⟨hq1, -⟩ | hq1
                    · rw [hq1]
                      exact listPre_some_item _ hitem
                    · exact listPre_of_prev_blank _ hq1
                  · have hb2 := inv2 p hp hblank
                    exact listPre_of_prev_blank _ (inv3 hb2)
              exact hcore q hq0
            · -- a blank was inserted before the list
              rw [show ([([] : Line)] : List Line) ++ line ::
                  (rest.takeWhile (fun l => isListItem l || isCont l) ++
                    (postBlank (rest.dropWhile (fun l => isListItem l || isCont l)) ++
                      fixLoop f
                        (some ((rest.takeWhile (fun l =>
                          isListItem l || isCont l)).getLast?.getD line))
                        (rest.dropWhile (fun l => isListItem l || isCont l))))
                  = (if true then [([] : Line)] else []) ++ line ::
                  (rest.takeWhile (fun l => isListItem l || isCont l) ++
                    (postBlank (rest.dropWhile (fun l => isListItem l || isCont l)) ++
                      fixLoop f
                        (some ((rest.takeWhile (fun l =>
                          isListItem l || isCont l)).getLast?.getD line))
                        (rest.dropWhile (fun l => isListItem l || isCont l)))) from rfl,
                collapse_pre_seg b true _ _ hbL, hinner]
              refine formattedAll_pre_list _ _ _ _ ?_ hcore
              intro hd0
              simp only [Bool.true_and, Bool.not_eq_false'] at hd0
              exact listPre_of_prev_blank _ (inv3 hd0)
          · -- plain case
            simp only [Bool.not_eq_true] at hl
            rw [fixLoop_plain f _ _ _ hh hf hl, collapse_cons]
            by_cases hxb : (isBlank line && b) = true
            · rw [if_pos hxb, List.nil_append]
              obtain ⟨hbl, hb2⟩ := Bool.and_eq_true_iff.mp hxb
              rw [hbl]
              exact ih (some line) rest true q (by omega) hccr hbcr
                (loopInv_blank_prev line q (inv3 hb2))
            · rw [if_neg hxb, List.singleton_append]
              refine formattedAll_plain _ _ _ hh hf hl ?_
              exact ih (some line) rest (isBlank line) (some line) (by omega) hccr hbcr
                (loopInv_self line)

/-- C1 (counterexample): the formatter is not idempotent on every input.
On `"# T::"` the first run strips one trailing colon and the second run
strips another, so the two results differ; on `"- a\n  \n\n  x\na"` the
blank-line collapse merges two list blocks across runs, changing the list
scan of the second run. -/
theorem idempotence_counterexample :
    fix_markdown_formatting (fix_markdown_formatting "# T::".data)
        ≠ fix_markdown_formatting "# T::".data ∧
    fix_markdown_formatting (fix_markdown_formatting "- a\n  \n\n  x\na".data)
        ≠ fix_markdown_formatting "- a\n  \n\n  x\na".data := by
  constructor
  · decide
  · decide

/-- C1 (amended): the formatter is idempotent on every input whose lines
contain no heading ending in two colons (the colon strip removes only one
per run) and no whitespace-only line starting with two spaces (such a line
is both blank and a list continuation, so the blank collapse can change the
list scan of a second run). -/
theorem formatter_idempotent_amended (content : List Char)
    (hcc : ∀ l ∈ splitLines content,
      isHeading l = true → endsColonColon l = false)
    (hbc : ∀ l ∈ splitLines content,
      isBlank l = true → isCont l = false) :
    fix_markdown_formatting (fix_markdown_formatting content)
      = fix_markdown_formatting content := by
  have hOut : FormattedAll none
      (collapseBlanks false (fixLines (splitLines content))) :=
    collapsed_output_formatted (splitLines content).length none
      (splitLines content) false none le_rfl hcc hbc loopInv_start
  have hfix : fixLines (collapseBlanks false (fixLines (splitLines content)))
      = collapseBlanks false (fixLines (splitLines content)) := by
    unfold fixLines
    exact fixLoop_of_formatted _ none _ hOut le_rfl
  have hcol : collapseBlanks false
        (collapseBlanks false (fixLines (splitLines content)))
      = collapseBlanks false (fixLines (splitLines content)) :=
    collapse_id_of_chain _ (collapse_chain_nb false _)
  show joinLines (collapseBlanks false (fixLines
      (splitLines (fix_markdown_formatting content))))
    = fix_markdown_formatting content
  rw [splitLines_fix, hfix, hcol]
  rfl

theorem formatter_idempotent_amended_witness :
    (∀ l ∈ splitLines "# Title:\nSome text".data,
        isHeading l = true → endsColonColon l = false) ∧
    (∀ l ∈ splitLines "# Title:\nSome text".data,
        isBlank l = true → isCont l = false) ∧
    fix_markdown_formatting
        (fix_markdown_formatting "# Title:\nSome text".data)
      = fix_markdown_formatting "# Title:\nSome text".data :=
  ⟨by decide, by decide,
    formatter_idempotent_amended "# Title:\nSome text".data
      (by decide) (by decide)⟩
